import Mathlib

/-!
# Verification of the lumberjack tree library

Shallow embedding of the lumberjack constituency-tree library and proofs
about its structural-surgery algorithms.

The algorithms under verification (`src/lumberjack/src/tree_modification.rs`,
`src/lumberjack/src/features.rs`, `src/lumberjack/src/io/conllx.rs`) are
translated directly from the Rust source.  The supporting data model
(`Span`, `Node`, `Tree`, `Climber`, `LabelSet`, defined in the crate's
`tree.rs` / `util.rs`, which are not part of the sources at hand) is
modelled from the specification document; every such definition is marked
`Modelled from the spec:` in its doc comment.

Machine integers (`usize`) are modelled as `Nat`: all quantities involved
(terminal positions, node indices, counts) are small and never overflow in
the modelled flows.  Rust iterator pipelines become list functions; the
imperative loops of `tree_modification.rs` become structural recursion on
the iterated list, or fuel-based recursion where the loop climbs the
parent chain of a graph (the fuel is chosen at the call site large enough
that it is never exhausted on well-formed trees).
-/

namespace Lumberjack

/-! ## Features (`src/lumberjack/src/features.rs`) -/

/-- Ordered key/optional-value bag, mirroring `struct Features { vec: Vec<(String, Option<String>)> }`. -/
structure Features where
  vec : List (String × Option String)
deriving DecidableEq, Repr

/-- Translation of `impl<S> From<S> for Features`: split on `'|'`; for each
field, `f.find(':')` locates the first colon and `f.split_at(idx)` cuts the
field in two, the second half starting **at** the colon (so the colon stays
in the value, exactly as in the source).  Strings are handled at the
character level (`String.data`); the separators are ASCII, so byte indices
of the source coincide with character indices. -/
def Features.fromString (s : String) : Features :=
  ⟨(s.data.splitOn '|').map fun f =>
    match f.findIdx? (· = ':') with
    | some i => (⟨f.take i⟩, some (⟨f.drop i⟩ : String))
    | none => (⟨f⟩, none)⟩

/-- Translation of the loop body of `Features::insert`: scan for the key,
replace the value in place (keeping the stored key and its position) and
return the previous value, else push the new pair at the end. -/
def insertPair (key : String) (val : Option String) :
    List (String × Option String) → Option String × List (String × Option String)
  | [] => (none, [(key, val)])
  | (k, v) :: rest =>
    if k = key then (v, (k, val) :: rest)
    else
      let (prev, rest') := insertPair key val rest
      (prev, (k, v) :: rest')

/-- Translation of `Features::insert`. -/
def Features.insert (fs : Features) (key : String) (val : Option String) :
    Option String × Features :=
  let (prev, vec) := insertPair key val fs.vec
  (prev, ⟨vec⟩)

/-- Modelled from the spec: `Features::remove(key) → Option<val>` (§4.2) is
not among the sources at hand; it removes the first pair carrying `key` and
returns its value. -/
def removePair (key : String) :
    List (String × Option String) → Option String × List (String × Option String)
  | [] => (none, [])
  | (k, v) :: rest =>
    if k = key then (v, rest)
    else
      let (prev, rest') := removePair key rest
      (prev, (k, v) :: rest')

/-- Modelled from the spec: `Features::remove` on the whole bag. -/
def Features.remove (fs : Features) (key : String) : Option String × Features :=
  let (prev, vec) := removePair key fs.vec
  (prev, ⟨vec⟩)

/-- Translation of `Features::get_val`: `find_map` over the pairs, producing
the value only when the key matches and the value is present. -/
def Features.get_val (fs : Features) (key : String) : Option String :=
  fs.vec.findSome? fun p => if key = p.1 then p.2 else none

/-- Translation of `impl ToString for Features`: re-emit `k:v` or `k`,
joined by `'|'`. -/
def Features.toString (fs : Features) : String :=
  String.intercalate "|"
    (fs.vec.map fun p =>
      match p.2 with
      | some v => p.1 ++ ":" ++ v
      | none => p.1)

/-! ## Claims C7, C8, C10 — the feature bag -/

/-- C7.  The claim states that a `k:v` field parses to `(k, Some v)` with the
value excluding the colon, and that the empty string parses to an empty bag.
The source keeps the colon inside the value (`split_at(idx)` leaves the
second half starting at the separator) and parses `""` to the one-element
bag `[("", None)]`.  The colon behaviour contradicts the crate's own test
`un_collapse_unary`, which expects `Features::from("unary_chain:UNARY_ROOT")`
to equal the bag `[("unary_chain", Some("UNARY_ROOT"))]` built by
`collapse_unary_chains`. -/
theorem c7_features_parse_keeps_colon :
    Features.fromString "unary_chain:UNARY_ROOT"
        = ⟨[("unary_chain", some ":UNARY_ROOT")]⟩ ∧
    Features.fromString "unary_chain:UNARY_ROOT"
        ≠ ⟨[("unary_chain", some "UNARY_ROOT")]⟩ ∧
    Features.fromString "" ≠ ⟨[]⟩ := by
  refine ⟨by decide, by decide, by decide⟩

/-- C8.  The round-trip law L1 (`parse(s).to_string() = s` for `s` without
repeated keys) fails on `"a:b"`: parsing keeps the colon in the value and
serialization adds a second one, yielding `"a::b"`. -/
theorem c8_feature_roundtrip_fails :
    (Features.fromString "a:b").toString = "a::b" ∧ "a::b" ≠ "a:b" := by
  refine ⟨by decide, by decide⟩

/-- C10.  `get_val` returns the value of the first pair whose key matches
and whose value is present: it equals the head of the list of present
values among pairs with a matching key, so a `(k, None)` pair does not stop
the search and if no matching pair carries a value the result is `none`. -/
theorem c10_get_val_first_some (fs : Features) (key : String) :
    fs.get_val key =
      (fs.vec.filterMap fun p => if key = p.1 then p.2 else none).head? := by
  unfold Features.get_val
  induction fs.vec with
  | nil => rfl
  | cons p rest ih =>
    rw [List.findSome?_cons, List.filterMap_cons]
    by_cases hk : key = p.1
    · cases hv : p.2 with
      | none => rw [if_pos hk]; exact ih
      | some v => rw [if_pos hk]; rfl
    · rw [if_neg hk]
      exact ih

/-! ## Data model: spans, nodes, trees

The tree data structure lives in the crate's `tree.rs`, which is not among
the sources at hand; everything in this section is modelled from the
specification (sections 3, 4.1, 4.3, 4.6, 4.7).  Node and edge handles of
the `petgraph::StableGraph` are modelled as `Nat` indices into association
lists; a removal never renumbers surviving entries, which is exactly the
stability contract of the spec. -/

/-- Modelled from the spec: a span is continuous `[lower, upper)` or
discontinuous with an explicit, strictly interior skip set (kept as an
ascending list, mirroring the `BTreeSet` iteration order). -/
inductive Span where
  | continuous (lower upper : Nat)
  | discontinuous (lower upper : Nat) (skips : List Nat)
deriving DecidableEq, Repr

/-- Modelled from the spec: lower bound of a span. -/
def Span.lower : Span → Nat
  | .continuous lo _ => lo
  | .discontinuous lo _ _ => lo

/-- Modelled from the spec: exclusive upper bound of a span. -/
def Span.upper : Span → Nat
  | .continuous _ hi => hi
  | .discontinuous _ hi _ => hi

/-- Modelled from the spec: skip set of a span (empty for continuous). -/
def Span.skips : Span → List Nat
  | .continuous _ _ => []
  | .discontinuous _ _ sk => sk

/-- Modelled from the spec: ascending iteration over the covered positions. -/
def Span.covered (s : Span) : List Nat :=
  (List.range' s.lower (s.upper - s.lower)).filter fun i => ¬ s.skips.contains i

/-- Modelled from the spec: span equality is by covered set.  Covered lists
are ascending and duplicate-free, so list equality coincides with set
equality. -/
def Span.ceq (a b : Span) : Bool :=
  a.covered == b.covered

/-- Modelled from the spec: a terminal node (`form`, `label`, optional
lemma, optional features, and its single position `idx`). -/
structure Terminal where
  form : String
  label : String
  lemma' : Option String
  features : Option Features
  idx : Nat
deriving DecidableEq, Repr

/-- Modelled from the spec: `Terminal::new(form, label, idx)`. -/
def Terminal.mk' (form label : String) (idx : Nat) : Terminal :=
  ⟨form, label, none, none, idx⟩

/-- Modelled from the spec: a non-terminal node (`label`, optional
features, derived span). -/
structure NonTerminal where
  label : String
  features : Option Features
  span : Span
deriving DecidableEq, Repr

/-- Modelled from the spec: `NonTerminal::new(label, span)`. -/
def NonTerminal.mk' (label : String) (span : Span) : NonTerminal :=
  ⟨label, none, span⟩

/-- Modelled from the spec: the tagged node variant. -/
inductive Node where
  | terminal (t : Terminal)
  | nonTerminal (nt : NonTerminal)
deriving DecidableEq, Repr

/-- Modelled from the spec: `Node::label()`. -/
def Node.label : Node → String
  | .terminal tm => tm.label
  | .nonTerminal nt => nt.label

/-- Modelled from the spec: `Node::span()`; a terminal at position `i` has
the continuous span `[i, i+1)`. -/
def Node.span : Node → Span
  | .terminal tm => .continuous tm.idx (tm.idx + 1)
  | .nonTerminal nt => nt.span

/-- Modelled from the spec: `Node::features_mut().insert(key, val)`; an
absent feature bag is created empty first. -/
def Node.featuresInsert (n : Node) (key : String) (val : Option String) : Node :=
  match n with
  | .terminal tm =>
    .terminal { tm with features := some ((tm.features.getD ⟨[]⟩).insert key val).2 }
  | .nonTerminal nt =>
    .nonTerminal { nt with features := some ((nt.features.getD ⟨[]⟩).insert key val).2 }

/-- Modelled from the spec: `Node::features_mut().remove(key)`, returning
the removed value (if one was present) with the updated node. -/
def Node.featuresRemove (n : Node) (key : String) : Option String × Node :=
  match n with
  | .terminal tm =>
    let (prev, fs) := (tm.features.getD ⟨[]⟩).remove key
    (prev, .terminal { tm with features := some fs })
  | .nonTerminal nt =>
    let (prev, fs) := (nt.features.getD ⟨[]⟩).remove key
    (prev, .nonTerminal { nt with features := some fs })

/-- Modelled from the spec: an edge carries an optional edge label. -/
structure Edge where
  label : Option String
deriving DecidableEq, Repr

/-- Modelled from the spec: `Edge::default()` has no label. -/
def Edge.default : Edge := ⟨none⟩

/-- Modelled from the spec: `LabelSet::{Positive, Negative}` (§4.6). -/
inductive LabelSet where
  | positive (s : List String)
  | negative (s : List String)

/-- Modelled from the spec: `LabelSet::matches` is membership for
`Positive` and non-membership for `Negative`. -/
def LabelSet.matches : LabelSet → String → Bool
  | .positive s, l => s.contains l
  | .negative s, l => ¬ s.contains l

/-- Modelled from the spec: the tree is a stable directed graph over nodes
with a distinguished root, a cached terminal count and a projectivity flag
(`true` = `Projective`).  `nodes` associates stable indices to nodes and
`edges` lists `(parent, child, weight)` triples in insertion order. -/
structure Tree where
  nodes : List (Nat × Node)
  edges : List (Nat × Nat × Edge)
  nextId : Nat
  root : Nat
  nTerminals : Nat
  projectivity : Bool
deriving DecidableEq, Repr

/-- Modelled from the spec: indexing `tree[node]`. -/
def Tree.getNode (t : Tree) (i : Nat) : Option Node :=
  (t.nodes.find? fun p => p.1 == i).map (·.2)

/-- Modelled from the spec: in-place node replacement behind `tree[node]`
mutable indexing. -/
def Tree.setNode (t : Tree) (i : Nat) (n : Node) : Tree :=
  { t with nodes := t.nodes.map fun p => if p.1 == i then (p.1, n) else p }

/-- Modelled from the spec: `graph_mut().add_node`, returning the fresh
stable index. -/
def Tree.addNode (t : Tree) (n : Node) : Tree × Nat :=
  ({ t with nodes := t.nodes ++ [(t.nextId, n)], nextId := t.nextId + 1 }, t.nextId)

/-- Modelled from the spec: `graph_mut().remove_node` drops the node and
its incident edges; other indices are stable. -/
def Tree.removeNode (t : Tree) (i : Nat) : Tree :=
  { t with
    nodes := t.nodes.filter fun p => p.1 != i
    edges := t.edges.filter fun e => e.1 != i && e.2.1 != i }

/-- Modelled from the spec: `graph_mut().add_edge(u, v, weight)`. -/
def Tree.addEdge (t : Tree) (u v : Nat) (w : Edge) : Tree :=
  { t with edges := t.edges ++ [(u, v, w)] }

/-- Modelled from the spec: `parent(node)` finds the unique incoming edge
(the first one in store order) and returns the parent index with the
edge weight. -/
def Tree.parent (t : Tree) (i : Nat) : Option (Nat × Edge) :=
  (t.edges.find? fun e => e.2.1 == i).map fun e => (e.1, e.2.2)

/-- Modelled from the spec: the parent index alone (the `Climber` step). -/
def Tree.parentNode (t : Tree) (i : Nat) : Option Nat :=
  (t.parent i).map (·.1)

/-- Modelled from the spec: removing the incoming edge of `i` (in every
call site the edge handle being removed is exactly the current incoming
edge of some node) and returning its weight.  The `unwrap` of the source
cannot fire there; an absent edge leaves the tree unchanged. -/
def Tree.removeParentEdge (t : Tree) (i : Nat) : Edge × Tree :=
  match t.edges.find? fun e => e.2.1 == i with
  | some e => (e.2.2, { t with edges := t.edges.eraseP fun e => e.2.1 == i })
  | none => (Edge.default, t)

/-- Translation helper for `petgraph`-style `update_edge`: replace the
weight of the first `u → v` edge, or add a fresh edge when none exists. -/
def updateEdgeList (u v : Nat) (w : Edge) :
    List (Nat × Nat × Edge) → Option (List (Nat × Nat × Edge))
  | [] => none
  | e :: es =>
    if e.1 == u && e.2.1 == v then some ((u, v, w) :: es)
    else (updateEdgeList u v w es).map (e :: ·)

/-- Modelled from the spec: `graph_mut().update_edge(u, v, weight)`. -/
def Tree.updateEdge (t : Tree) (u v : Nat) (w : Edge) : Tree :=
  match updateEdgeList u v w t.edges with
  | some es => { t with edges := es }
  | none => t.addEdge u v w

/-- Modelled from the spec: `children(node)` in edge-store order. -/
def Tree.children (t : Tree) (i : Nat) : List (Nat × Edge) :=
  t.edges.filterMap fun e => if e.1 == i then some (e.2.1, e.2.2) else none

/-- Modelled from the spec: `set_root(node)`. -/
def Tree.setRoot (t : Tree) (r : Nat) : Tree :=
  { t with root := r }

/-- Modelled from the spec: `set_projectivity(p)`. -/
def Tree.setProjectivity (t : Tree) (p : Bool) : Tree :=
  { t with projectivity := p }

/-- Modelled from the spec: `projective()` reads the projectivity flag. -/
def Tree.projective (t : Tree) : Bool :=
  t.projectivity

/-- Stable insertion sort by a `Nat` key, used to model iteration in
terminal-position order. -/
def insertByKey (key : α → Nat) (x : α) : List α → List α
  | [] => [x]
  | y :: ys => if key x ≤ key y then x :: y :: ys else y :: insertByKey key x ys

/-- Stable insertion sort by a `Nat` key. -/
def sortByKey (key : α → Nat) : List α → List α
  | [] => []
  | x :: xs => insertByKey key x (sortByKey key xs)

/-- Modelled from the spec: `terminals()` yields the terminal node handles
sorted by terminal position. -/
def Tree.terminals (t : Tree) : List Nat :=
  (sortByKey Prod.fst (t.nodes.filterMap fun p =>
    match p.2 with
    | .terminal tm => some (tm.idx, p.1)
    | .nonTerminal _ => none)).map (·.2)

/-- Modelled from the spec: the label behind a node handle (total for
convenience; every use is on a handle that resolves). -/
def Tree.labelAt (t : Tree) (i : Nat) : String :=
  ((t.getNode i).map Node.label).getD ""

/-- Modelled from the spec: the span behind a node handle. -/
def Tree.spanAt (t : Tree) (i : Nat) : Span :=
  ((t.getNode i).map Node.span).getD (.continuous 0 0)

/-! ## Helpers shared by the algorithms -/

/-- Ascending duplicate-free merge helper: removes adjacent duplicates of a
sorted list. -/
def dedupSorted : List Nat → List Nat
  | [] => []
  | [x] => [x]
  | x :: y :: rest =>
    if x = y then dedupSorted (y :: rest) else x :: dedupSorted (y :: rest)

/-- Modelled from the spec: `Span::from_positions` over an ascending
duplicate-free list — continuous when gap-free, else discontinuous with
the interior gaps as skips; fails on the empty list. -/
def spanFromPositions (ps : List Nat) : Option Span :=
  match ps with
  | [] => none
  | lo :: _ =>
    let hi := ps.getLastD lo + 1
    let sk := (List.range' lo (hi - lo)).filter fun i => ¬ ps.contains i
    if sk.isEmpty then some (.continuous lo hi)
    else some (.discontinuous lo hi sk)

/-- Modelled from the spec: `extend_span()` re-derives a node's span from
the union of its children's spans (§3: spans are derived from children and
kept in sync by the tree when children are added). -/
def Tree.extendSpan (t : Tree) (i : Nat) : Tree :=
  match t.getNode i, spanFromPositions (dedupSorted (sortByKey id
      ((t.children i).flatMap fun c => (t.spanAt c.1).covered))) with
  | some (.nonTerminal nt), some sp => t.setNode i (.nonTerminal { nt with span := sp })
  | _, _ => t

/-- Character-level model of Rust `str::split` with a string pattern.
Fuel-based structural recursion (the fuel passed by `stringSplit` can
never run out). -/
def splitOnCharsFuel (sep : List Char) : Nat → List Char → List Char → List (List Char)
  | 0, l, acc => [acc.reverse ++ l]
  | _ + 1, [], acc => [acc.reverse]
  | fuel + 1, c :: rest, acc =>
    if sep.isPrefixOf (c :: rest) then
      acc.reverse :: splitOnCharsFuel sep fuel (List.drop (sep.length - 1) rest) []
    else
      splitOnCharsFuel sep fuel rest (c :: acc)

/-- Rust `str::split` with a string pattern, at the character level. -/
def stringSplit (s sep : String) : List String :=
  (splitOnCharsFuel sep.data (s.data.length + 1) s.data []).map (⟨·⟩)

/-! ## `AnnotatePOS::annotate_pos` (`tree_modification.rs`) -/

/-- Translation of `self[terminal].terminal_mut().unwrap().set_label(pos)`.
The handle always resolves to a terminal (it comes from `terminals()`), so
the panic branch is modelled as the identity. -/
def Tree.setTerminalLabel (t : Tree) (i : Nat) (lbl : String) : Tree :=
  match t.getNode i with
  | some (.terminal tm) => t.setNode i (.terminal { tm with label := lbl })
  | _ => t

/-- Translation of the loop of `annotate_pos`: walk the collected terminal
handles, taking one tag per terminal; error when the tag iterator runs out
early, and error after the loop when tags are left over. -/
def annotatePosGo (t : Tree) : List Nat → List String → Except String Tree
  | [], rest =>
    if rest.isEmpty then .ok t
    else .error "Number of POS tags is greater than number of terminals."
  | _ :: _, [] => .error "Not enough POS tags were provided"
  | terminal :: terms, p :: ps => annotatePosGo (t.setTerminalLabel terminal p) terms ps

/-- Translation of `AnnotatePOS::annotate_pos for Tree`. -/
def Tree.annotate_pos (t : Tree) (pos : List String) : Except String Tree :=
  annotatePosGo t t.terminals pos

/-! ## `TreeOps::insert_intermediate` -/

/-- Translation of the loop of `insert_intermediate`, iterating the
enumerated terminal handles with the `prev_attachment` state.  The
`unwrap` on `self.parent(prev_insert)` cannot fire in the source (the
inserted node always has a parent); a missing parent here simply fails
the sharing test. -/
def insertIntermediateGo (tagSet : LabelSet) (insertionLabel : String) :
    Tree → Option (Nat × Nat) → List (Nat × Nat) → Except String Tree
  | t, _, [] => .ok t
  | t, prevAttachment, (position, terminal) :: rest =>
    match t.parent terminal with
    | none => .error "Terminal without parent"
    | some (parent, _) =>
      if tagSet.matches (t.labelAt parent) then
        insertIntermediateGo tagSet insertionLabel t prevAttachment rest
      else
        let (weight, t1) := t.removeParentEdge terminal
        let shared :=
          match prevAttachment with
          | some (prevPosition, prevInsert) =>
            if prevPosition == position - 1 && t1.parentNode prevInsert == some parent then
              some prevInsert
            else none
          | none => none
        match shared with
        | some prevInsert =>
          let t2 := (t1.addEdge prevInsert terminal weight).extendSpan prevInsert
          insertIntermediateGo tagSet insertionLabel t2 (some (position, prevInsert)) rest
        | none =>
          let span := t1.spanAt terminal
          let (t2, insertedIdx) :=
            t1.addNode (.nonTerminal (NonTerminal.mk' insertionLabel span))
          let t3 := (t2.addEdge parent insertedIdx weight).addEdge insertedIdx terminal weight
          insertIntermediateGo tagSet insertionLabel t3 (some (position, insertedIdx)) rest

/-- Translation of `TreeOps::insert_intermediate for Tree`. -/
def Tree.insert_intermediate (t : Tree) (tagSet : LabelSet) (insertionLabel : String) :
    Except String Tree :=
  insertIntermediateGo tagSet insertionLabel t none t.terminals.enum

/-! ## `TreeOps::filter_nonterminals` -/

/-- Translation of the keep/delete partition fold of `filter_nonterminals`:
node indices in store order, root excluded; non-terminals whose label is
not matched go to the delete list, everything else to the keep list. -/
def keepDelete (t : Tree) (tagSet : LabelSet) : List Nat × List Nat :=
  t.nodes.foldl
    (fun kd p =>
      if p.1 == t.root then kd
      else
        match p.2 with
        | .nonTerminal nt =>
          if tagSet.matches nt.label then (kd.1 ++ [p.1], kd.2)
          else (kd.1, kd.2 ++ [p.1])
        | .terminal _ => (kd.1 ++ [p.1], kd.2))
    ([], [])

/-- Translation of the climbing loop of `filter_nonterminals`: repeated
`Climber::next` until a non-terminal matched by `tag_set` or the root is
reached (then the re-attachment target), an error when a parent is a
terminal, or `none` when the climb ends at a parentless node with no match
(then no re-binding happens).  Fuel-based; the call site passes more fuel
than any parent chain of a well-formed tree is long. -/
def climbToMatch (t : Tree) (tagSet : LabelSet) : Nat → Nat → Except String (Option Nat)
  | 0, _ => .ok none
  | fuel + 1, node =>
    match t.parentNode node with
    | none => .ok none
    | some parentIdx =>
      match t.getNode parentIdx with
      | some (.nonTerminal nt) =>
        if tagSet.matches nt.label || parentIdx == t.root then .ok (some parentIdx)
        else climbToMatch t tagSet fuel parentIdx
      | _ => .error "Terminal as parent"

/-- Translation of the re-attachment loop of `filter_nonterminals` over
the keep list: remember the incoming edge, climb, re-bind the edge to the
found ancestor with the original weight. -/
def filterLoop (tagSet : LabelSet) : Tree → List Nat → Except String Tree
  | t, [] => .ok t
  | t, node :: rest =>
    match t.parent node with
    | none => .error "Non-root node without incoming edge"
    | some _ =>
      match climbToMatch t tagSet (t.nodes.length + 1) node with
      | .error e => .error e
      | .ok none => filterLoop tagSet t rest
      | .ok (some target) =>
        let (weight, t1) := t.removeParentEdge node
        filterLoop tagSet (t1.updateEdge target node weight) rest

/-- Translation of `TreeOps::filter_nonterminals for Tree`. -/
def Tree.filter_nonterminals (t : Tree) (tagSet : LabelSet) : Except String Tree :=
  let kd := keepDelete t tagSet
  (filterLoop tagSet t kd.1).map fun t1 => kd.2.foldl Tree.removeNode t1

/-! ## `TreeOps::collapse_unary_chains` / `restore_unary_chains` -/

/-- Translation of the climbing loop of `collapse_unary_chains` for one
terminal: `pos` is the climber position, `cur` the node kept below the
chain, `prevSpan` the span of `cur`, `chain` the accumulated labels and
`del` the accumulated nodes to delete. -/
def collapseClimb (delim : String) :
    Nat → Tree → Nat → Nat → Span → List String → List Nat →
    Except String (Tree × Nat × List String × List Nat)
  | 0, t, _, cur, _, chain, del => .ok (t, cur, chain, del)
  | fuel + 1, t, pos, cur, prevSpan, chain, del =>
    match t.parentNode pos with
    | none => .ok (t, cur, chain, del)
    | some node =>
      if (t.spanAt node).ceq prevSpan then
        match t.getNode node with
        | some (.nonTerminal nt) =>
          collapseClimb delim fuel t node cur prevSpan (chain ++ [nt.label]) (del ++ [node])
        | _ => .error "Terminal dominating NT."
      else if chain.isEmpty then
        collapseClimb delim fuel t node node (t.spanAt node) chain del
      else
        let t1 :=
          match t.getNode cur with
          | some n =>
            t.setNode cur (n.featuresInsert "unary_chain" (some (String.intercalate delim chain)))
          | none => t
        let t2 := t1.addEdge node cur Edge.default
        collapseClimb delim fuel t2 node node (t2.spanAt node) [] del

/-- Translation of the per-terminal body of `collapse_unary_chains`: climb,
then handle a chain reaching the root, then remove the collapsed nodes. -/
def collapseTerminal (delim : String) (t : Tree) (terminal : Nat) : Except String Tree := do
  let r ← collapseClimb delim (t.nodes.length + 1) t terminal terminal
    (t.spanAt terminal) [] []
  let (t1, cur, chain, del) := r
  let t2 :=
    if chain.isEmpty then t1
    else
      let t1' := t1.setRoot cur
      match t1'.getNode cur with
      | some n =>
        t1'.setNode cur (n.featuresInsert "unary_chain" (some (String.intercalate delim chain)))
      | none => t1'
  return del.foldl Tree.removeNode t2

/-- Translation of `TreeOps::collapse_unary_chains for Tree` (the terminal
handles are collected once up front, as in the source). -/
def Tree.collapse_unary_chains (t : Tree) (delim : String) : Except String Tree :=
  t.terminals.foldlM (collapseTerminal delim) t

/-- Translation of the per-node body of `restore_unary_chains`:
`features_mut().remove("unary_chain")` always materializes the feature bag
(mirroring `get_or_insert_with(Features::default)`); on a hit, the parent
edge is detached, the chain is rebuilt bottom-up with the node's span and
default edges, and the top is re-attached or promoted to root. -/
def restoreNode (delim : String) (t : Tree) (node : Nat) : Tree :=
  match t.getNode node with
  | none => t
  | some n =>
    let (chainVal, n') := n.featuresRemove "unary_chain"
    let t0 := t.setNode node n'
    match chainVal with
    | none => t0
    | some chain =>
      let att :=
        match t0.parent node with
        | some pe =>
          let (_, t') := t0.removeParentEdge node
          (some pe.1, t')
        | none => (none, t0)
      let t1 := att.2
      let span := t1.spanAt node
      let built := (stringSplit chain delim).foldl
        (fun (acc : Tree × Nat) lbl =>
          let (tr, newIdx) := acc.1.addNode (.nonTerminal (NonTerminal.mk' lbl span))
          (tr.addEdge newIdx acc.2 Edge.default, newIdx))
        (t1, node)
      match att.1 with
      | some a => built.1.addEdge a built.2 Edge.default
      | none => built.1.setRoot built.2

/-- Translation of `TreeOps::restore_unary_chains for Tree` (the node
indices are collected once up front; the source's `Result` has no failing
path). -/
def Tree.restore_unary_chains (t : Tree) (delim : String) : Tree :=
  (t.nodes.map Prod.fst).foldl (restoreNode delim) t

/-! ## `Projectivize::projectivize` -/

/-- Translation of `petgraph`'s `DfsPostOrder` state; the traversal is
queried lazily between mutations exactly as in the source.  Neighbours are
visited in edge-store order (the spec leaves child order unspecified). -/
structure DfsPost where
  stack : List Nat
  discovered : List Nat
  finished : List Nat
deriving Repr

/-- One `dfs.next(graph)` call: find an undiscovered child of the stack
top and descend, otherwise pop and emit the top if not yet finished.
Fuel-based; each call needs at most two steps per node. -/
def dfsNext (t : Tree) : Nat → DfsPost → Option (Nat × DfsPost)
  | 0, _ => none
  | fuel + 1, s =>
    match s.stack with
    | [] => none
    | nx :: rest =>
      let disc := if s.discovered.contains nx then s.discovered else nx :: s.discovered
      match ((t.children nx).map (·.1)).find? (fun c => ¬ disc.contains c) with
      | some c => dfsNext t fuel { s with stack := c :: nx :: rest, discovered := disc }
      | none =>
        if s.finished.contains nx then
          dfsNext t fuel { stack := rest, discovered := disc, finished := s.finished }
        else
          some (nx, { stack := rest, discovered := disc, finished := nx :: s.finished })

/-- Translation of the labelled climb `'a: while let Some(...)` inside
`projectivize`: climb from the skipped terminal, keeping the highest
handle of a unary chain; at the first ancestor whose span differs and
covers a position outside the snapshot skip set, clear the handle's covered
positions from the working skips, record the claim log, and re-attach the
handle under the attachment-point candidate with the detached edge's
weight. -/
def projClimb (apc lo : Nat) (skOrig : List Nat) :
    Nat → Tree → List Nat → List (Option Nat) → Nat → Span →
    Tree × List Nat × List (Option Nat)
  | 0, t, skips, log, _, _ => (t, skips, log)
  | fuel + 1, t, skips, log, handle, reattachSpan =>
    match t.parentNode handle with
    | none => (t, skips, log)
    | some cand =>
      if ¬ ((t.spanAt cand).ceq reattachSpan) then
        if (t.spanAt cand).covered.any (fun c => ¬ skOrig.contains c) then
          let handleCov := (t.spanAt handle).covered
          let skips' := handleCov.foldl (fun sk c => sk.erase c) skips
          let log' := handleCov.foldl (fun lg c => lg.set c (some lo)) log
          let (edge, t1) := t.removeParentEdge handle
          (t1.updateEdge apc handle edge, skips', log')
        else
          projClimb apc lo skOrig fuel t skips log cand (t.spanAt cand)
      else
        projClimb apc lo skOrig fuel t skips log cand reattachSpan

/-- Translation of `while let Some(&skipped) = skips.iter().next()`: take
the least remaining skip; drop it when an earlier claim with lower bound
`≥ lo` owns it, else climb from its terminal.  Fuel-based: every
productive iteration shrinks the working skip set. -/
def processSkips (terminals : List Nat) (apc lo : Nat) (skOrig : List Nat) :
    Nat → Tree → List Nat → List (Option Nat) → Tree × List (Option Nat)
  | 0, t, _, log => (t, log)
  | fuel + 1, t, skips, log =>
    match skips.head? with
    | none => (t, log)
    | some skipped =>
      match log.getD skipped none with
      | some claimed =>
        if lo ≤ claimed then
          processSkips terminals apc lo skOrig fuel t (skips.erase skipped) log
        else
          let termId := terminals.getD skipped 0
          let r := projClimb apc lo skOrig (t.nodes.length + 1) t skips log termId
            (t.spanAt termId)
          processSkips terminals apc lo skOrig fuel r.1 r.2.1 r.2.2
      | none =>
        let termId := terminals.getD skipped 0
        let r := projClimb apc lo skOrig (t.nodes.length + 1) t skips log termId
          (t.spanAt termId)
        processSkips terminals apc lo skOrig fuel r.1 r.2.1 r.2.2

/-- Translation of the main `while let Some(apc) = dfs.next(...)` loop of
`projectivize`: only non-terminals with a `Discontinuous` span are
processed; their skips are resolved and the span is rewritten to the
continuous `[lower, upper)`. -/
def projectivizeLoop (terminals : List Nat) :
    Nat → Tree → DfsPost → List (Option Nat) → Tree
  | 0, t, _, _ => t
  | fuel + 1, t, dfs, log =>
    match dfsNext t (2 * t.nodes.length + 2) dfs with
    | none => t
    | some (apc, dfs') =>
      match t.getNode apc with
      | some (.nonTerminal nt) =>
        match nt.span with
        | .discontinuous lo hi sk =>
          let r := processSkips terminals apc lo sk (sk.length + 1) t sk log
          let t2 :=
            match r.1.getNode apc with
            | some (.nonTerminal nt') =>
              r.1.setNode apc (.nonTerminal { nt' with span := .continuous lo hi })
            | _ => r.1
          projectivizeLoop terminals fuel t2 dfs' r.2
        | .continuous _ _ => projectivizeLoop terminals fuel t dfs' log
      | _ => projectivizeLoop terminals fuel t dfs' log

/-- Translation of `Projectivize::projectivize for Tree`: guarded by the
projectivity flag, then the post-order pass, then the flag is set to
`Projective`. -/
def Tree.projectivize (t : Tree) : Tree :=
  if t.projective then t
  else
    (projectivizeLoop t.terminals (t.nodes.length + 1) t
      ⟨[t.root], [], []⟩ (List.replicate t.terminals.length none)).setProjectivity true

/-! ## Groundwork lemmas on the tree model -/

/-- Keys of the node store are pairwise distinct: the basic stable-graph
invariant (every handle denotes at most one node). -/
def Tree.wellKeyed (t : Tree) : Prop :=
  (t.nodes.map Prod.fst).Nodup

instance (t : Tree) : Decidable t.wellKeyed := by
  unfold Tree.wellKeyed
  infer_instance

theorem insertByKey_perm (key : α → Nat) (x : α) (l : List α) :
    List.Perm (insertByKey key x l) (x :: l) := by
  induction l with
  | nil => simp [insertByKey]
  | cons y ys ih =>
    by_cases h : key x ≤ key y
    · simp [insertByKey, h]
    · simp only [insertByKey, if_neg h]
      exact (List.Perm.cons y ih).trans (List.Perm.swap x y ys)

theorem sortByKey_perm (key : α → Nat) (l : List α) :
    List.Perm (sortByKey key l) l := by
  induction l with
  | nil => simp [sortByKey]
  | cons x xs ih =>
    exact (insertByKey_perm key x (sortByKey key xs)).trans (List.Perm.cons x ih)

theorem find?_eq_of_nodup_mem {l : List (Nat × Node)} {i : Nat} {n : Node}
    (hnd : (l.map Prod.fst).Nodup) (hmem : (i, n) ∈ l) :
    l.find? (fun p => p.1 == i) = some (i, n) := by
  induction l with
  | nil => cases hmem
  | cons p rest ih =>
    simp only [List.map_cons, List.nodup_cons] at hnd
    rcases List.mem_cons.mp hmem with h | h
    · subst h
      exact List.find?_cons_of_pos rest (by simp)
    · have hne : p.1 ≠ i := by
        intro he
        exact hnd.1 (he ▸ (List.mem_map.mpr ⟨(i, n), h, rfl⟩))
      rw [List.find?_cons_of_neg rest (by simp [hne])]
      exact ih hnd.2 h

theorem getNode_eq_of_mem {t : Tree} {i : Nat} {n : Node}
    (hw : t.wellKeyed) (hmem : (i, n) ∈ t.nodes) :
    t.getNode i = some n := by
  unfold Tree.getNode
  rw [find?_eq_of_nodup_mem hw hmem]
  rfl

theorem setNode_keys (t : Tree) (i : Nat) (n : Node) :
    (t.setNode i n).nodes.map Prod.fst = t.nodes.map Prod.fst := by
  unfold Tree.setNode
  simp only [List.map_map]
  apply List.map_congr_left
  intro p _
  by_cases h : p.1 = i <;> simp [h]

theorem wellKeyed_setNode (t : Tree) (i : Nat) (n : Node) (hw : t.wellKeyed) :
    (t.setNode i n).wellKeyed := by
  unfold Tree.wellKeyed
  rw [setNode_keys]
  exact hw

theorem getNode_setNode_ne (t : Tree) (i j : Nat) (n : Node) (hne : j ≠ i) :
    (t.setNode i n).getNode j = t.getNode j := by
  show ((t.nodes.map fun p => if p.1 == i then (p.1, n) else p).find?
      (fun p => p.1 == j)).map (·.2) = (t.nodes.find? (fun p => p.1 == j)).map (·.2)
  induction t.nodes with
  | nil => rfl
  | cons p rest ih =>
    have hq : (if p.1 == i then (p.1, n) else p).1 = p.1 := by
      by_cases hpi : p.1 = i <;> simp [hpi]
    by_cases hj : p.1 = j
    · have hij : ¬ p.1 = i := fun he => hne (hj ▸ he)
      rw [List.map_cons, List.find?_cons_of_pos _ (by rw [hq]; simp [hj]),
        List.find?_cons_of_pos _ (by simp [hj]), if_neg (by simp [hij])]
    · rw [List.map_cons, List.find?_cons_of_neg _ (by rw [hq]; simp [hj]),
        List.find?_cons_of_neg _ (by simp [hj])]
      exact ih

/-- Elements of `terminals()` resolve to terminal entries of the store. -/
theorem mem_terminals {t : Tree} {h : Nat} (hmem : h ∈ t.terminals) :
    ∃ tm : Terminal, (h, Node.terminal tm) ∈ t.nodes := by
  unfold Tree.terminals at hmem
  rcases List.mem_map.mp hmem with ⟨pair, hpair, hsnd⟩
  have hpair' := (sortByKey_perm Prod.fst _).mem_iff.mp hpair
  rcases List.mem_filterMap.mp hpair' with ⟨p, hp, hmk⟩
  rcases p with ⟨i, n⟩
  cases n with
  | terminal tm =>
    simp only [Option.some_inj] at hmk
    refine ⟨tm, ?_⟩
    have h2 : pair.2 = i := by rw [← hmk]
    rw [← hsnd, h2]
    exact hp
  | nonTerminal nt => simp at hmk

theorem getNode_of_mem_terminals {t : Tree} {h : Nat}
    (hw : t.wellKeyed) (hmem : h ∈ t.terminals) :
    ∃ tm : Terminal, t.getNode h = some (.terminal tm) := by
  rcases mem_terminals hmem with ⟨tm, hmem'⟩
  exact ⟨tm, getNode_eq_of_mem hw hmem'⟩

theorem nodup_terminals {t : Tree} (hw : t.wellKeyed) : t.terminals.Nodup := by
  unfold Tree.terminals
  have hperm := sortByKey_perm (α := Nat × Nat) Prod.fst
    (t.nodes.filterMap fun p =>
      match p.2 with
      | .terminal tm => some (tm.idx, p.1)
      | .nonTerminal _ => none)
  apply (hperm.map Prod.snd).nodup_iff.mpr
  have hmaps : (t.nodes.filterMap fun p =>
      match p.2 with
      | .terminal tm => some (tm.idx, p.1)
      | .nonTerminal _ => none).map Prod.snd
      = (t.nodes.filter fun p =>
          match p.2 with
          | .terminal _ => true
          | .nonTerminal _ => false).map Prod.fst := by
    induction t.nodes with
    | nil => rfl
    | cons p rest ih =>
      rcases p with ⟨i, n⟩
      cases n with
      | terminal tm => simpa [List.filterMap_cons, List.filter_cons] using ih
      | nonTerminal nt => simpa [List.filterMap_cons, List.filter_cons] using ih
  rw [hmaps]
  exact hw.sublist ((List.filter_sublist _).map Prod.fst)

/-! ## Claim C2 — algebra of `projectivize` -/

/-- C2.  `projectivize` is idempotent, afterwards `projective()` reports
true, and a tree whose projectivity flag is already `Projective` is
returned unchanged: the outer guard short-circuits on `projective()` and
the body always ends by setting the flag. -/
theorem c2_projectivize_idempotent (t : Tree) :
    t.projectivize.projectivize = t.projectivize ∧
    t.projectivize.projective = true ∧
    (t.projective = true → t.projectivize = t) := by
  have hflag : ∀ s : Tree, s.projectivize.projective = true := by
    intro s
    unfold Tree.projectivize
    by_cases h : s.projective
    · rw [if_pos h]; exact h
    · rw [if_neg h]; rfl
  have hid : ∀ s : Tree, s.projective = true → s.projectivize = s := by
    intro s h
    unfold Tree.projectivize
    rw [if_pos h]
  exact ⟨hid _ (hflag t), hflag t, hid t⟩

/-- Tiny already-projective tree used to instantiate C2's guard clause. -/
def projFlagTree : Tree :=
  { nodes := [(0, .terminal ( Terminal.mk' "t" "T" 0))], edges := [],
    nextId := 1, root := 0, nTerminals := 1, projectivity := true }

/-- C2 witness: the guard clause discharged on a concrete flagged tree. -/
theorem c2_projectivize_idempotent_witness :
    projFlagTree.projective = true ∧ projFlagTree.projectivize = projFlagTree :=
  ⟨by decide, (c2_projectivize_idempotent projFlagTree).2.2 (by decide)⟩

/-! ## Claim C3 — the projectivize scenario -/

/-- Scenario-6 tree of the spec (claim C3): root over `[0,3)`, `A` with
discontinuous span `{0,2}` (skip `{1}`) dominating terminals 0 and 2, and
`B` covering `[1,2)` as the root's child, dominating terminal 1.
Handles: 0 = root, 1 = `A`, 2 = `B`, 3/4/5 = terminals 0/1/2. -/
def scenarioTree : Tree :=
  { nodes := [(0, .nonTerminal ( NonTerminal.mk' "ROOT" (.continuous 0 3))),
              (1, .nonTerminal ( NonTerminal.mk' "A" (.discontinuous 0 3 [1]))),
              (2, .nonTerminal ( NonTerminal.mk' "B" (.continuous 1 2))),
              (3, .terminal ( Terminal.mk' "t0" "T0" 0)),
              (4, .terminal ( Terminal.mk' "t1" "T1" 1)),
              (5, .terminal ( Terminal.mk' "t2" "T2" 2))],
    edges := [(0, 1, Edge.default), (0, 2, Edge.default), (1, 3, Edge.default),
              (1, 5, Edge.default), (2, 4, Edge.default)],
    nextId := 6, root := 0, nTerminals := 3, projectivity := false }

/-- C3 (counterexample).  After `projectivize`, terminal 1 (handle 4)
still has `B` (handle 2) as its parent: the climb keeps the highest
span-equal ancestor as the re-attachment handle, so the node moved under
`A` is `B`, never terminal 1 — the claim's "reattaches terminal 1's
subtree (terminal 1 itself) ... to A" fails on its own scenario. -/
theorem c3_terminal_one_not_moved :
    scenarioTree.projectivize.parentNode 4 ≠ some 1 ∧
    scenarioTree.projectivize.parentNode 4 = some 2 := by
  refine ⟨by decide, by decide⟩

/-- C3 (amended).  `projectivize` re-attaches the subtree containing
terminal 1 — rooted at `B`, the highest ancestor whose span equals
terminal 1's span — from its old parent (the root) to `A`; terminal 1
itself keeps `B` as parent; `A`'s span is rewritten to the continuous
`[0,3)` and the projectivity flag becomes `Projective`. -/
theorem c3_projectivize_scenario :
    scenarioTree.parentNode 2 = some 0 ∧
    scenarioTree.projectivize.parentNode 2 = some 1 ∧
    scenarioTree.projectivize.parentNode 4 = some 2 ∧
    scenarioTree.projectivize.spanAt 1 = Span.continuous 0 3 ∧
    scenarioTree.projectivize.projective = true := by
  refine ⟨by decide, by decide, by decide, by decide, by decide⟩

/-! ## Claim C6 — `annotate_pos` -/

theorem getNode_setNode_self (t : Tree) (i : Nat) (n : Node) :
    (t.setNode i n).getNode i = (t.getNode i).map fun _ => n := by
  show ((t.nodes.map fun p => if p.1 == i then (p.1, n) else p).find?
      (fun p => p.1 == i)).map (·.2) = ((t.nodes.find? (fun p => p.1 == i)).map (·.2)).map _
  induction t.nodes with
  | nil => rfl
  | cons p rest ih =>
    have hq : (if p.1 == i then (p.1, n) else p).1 = p.1 := by
      by_cases hpi : p.1 = i <;> simp [hpi]
    by_cases hp : p.1 = i
    · rw [List.map_cons, List.find?_cons_of_pos _ (by rw [hq]; simp [hp]),
        List.find?_cons_of_pos _ (by simp [hp]), if_pos (by simp [hp])]
      rfl
    · rw [List.map_cons, List.find?_cons_of_neg _ (by rw [hq]; simp [hp]),
        List.find?_cons_of_neg _ (by simp [hp])]
      exact ih

theorem setTerminalLabel_wellKeyed (t : Tree) (i : Nat) (lbl : String)
    (hw : t.wellKeyed) : (t.setTerminalLabel i lbl).wellKeyed := by
  unfold Tree.setTerminalLabel
  cases hn : t.getNode i with
  | none => exact hw
  | some n =>
    cases n with
    | terminal tm => exact wellKeyed_setNode _ _ _ hw
    | nonTerminal nt => exact hw

theorem setTerminalLabel_terminals (t : Tree) (i : Nat) (lbl : String)
    (hw : t.wellKeyed) : (t.setTerminalLabel i lbl).terminals = t.terminals := by
  unfold Tree.setTerminalLabel
  cases hn : t.getNode i with
  | none => rfl
  | some n =>
    cases n with
    | nonTerminal nt => rfl
    | terminal tm =>
      show Tree.terminals _ = t.terminals
      unfold Tree.terminals Tree.setNode
      simp only [List.filterMap_map]
      congr 1
      congr 1
      apply List.filterMap_congr
      intro p hp
      rcases p with ⟨pi, pn⟩
      by_cases hpi : pi = i
      · have hpn : t.getNode i = some pn :=
          getNode_eq_of_mem hw (by rw [← hpi]; exact hp)
        rw [hn] at hpn
        injection hpn with hpn
        subst hpi
        rw [← hpn]
        simp
      · simp [Function.comp, hpi]

theorem setTerminalLabel_getNode_ne (t : Tree) (i j : Nat) (lbl : String) (hne : j ≠ i) :
    (t.setTerminalLabel i lbl).getNode j = t.getNode j := by
  unfold Tree.setTerminalLabel
  cases t.getNode i with
  | none => rfl
  | some n =>
    cases n with
    | terminal tm => exact getNode_setNode_ne t i j _ hne
    | nonTerminal nt => rfl

theorem annotatePosGo_isOk (terms : List Nat) (pos : List String) (t : Tree) :
    ((annotatePosGo t terms pos).isOk = true) ↔ pos.length = terms.length := by
  induction terms generalizing pos t with
  | nil =>
    cases pos with
    | nil => simp [annotatePosGo, Except.isOk, Except.toBool]
    | cons p ps => simp [annotatePosGo, Except.isOk, Except.toBool]
  | cons h hs ih =>
    cases pos with
    | nil => simp [annotatePosGo, Except.isOk, Except.toBool]
    | cons p ps => simpa [annotatePosGo] using ih ps (t.setTerminalLabel h p)

theorem annotatePosGo_ok {terms : List Nat} {pos : List String} {t R : Tree}
    (hw : t.wellKeyed) (hnd : terms.Nodup)
    (hterm : ∀ h ∈ terms, ∃ tm, t.getNode h = some (.terminal tm))
    (hok : annotatePosGo t terms pos = .ok R) :
    R.terminals = t.terminals ∧
    (∀ j, j ∉ terms → R.getNode j = t.getNode j) ∧
    (∀ (k h : Nat) (p : String), terms[k]? = some h → pos[k]? = some p →
      (R.getNode h).map Node.label = some p) := by
  induction terms generalizing pos t with
  | nil =>
    cases pos with
    | nil =>
      simp [annotatePosGo] at hok
      subst hok
      exact ⟨rfl, fun _ _ => rfl, fun k h p hh _ => by simp at hh⟩
    | cons p ps => simp [annotatePosGo] at hok
  | cons h hs ih =>
    cases pos with
    | nil => simp [annotatePosGo] at hok
    | cons p ps =>
      simp only [annotatePosGo] at hok
      have hnd' := List.nodup_cons.mp hnd
      rcases hterm h (List.mem_cons_self h hs) with ⟨tm, htm⟩
      have hterm' : ∀ h' ∈ hs, ∃ tm, (t.setTerminalLabel h p).getNode h' = some (.terminal tm) := by
        intro h' hh'
        have hne : h' ≠ h := fun he => hnd'.1 (he ▸ hh')
        rw [setTerminalLabel_getNode_ne t h h' p hne]
        exact hterm h' (List.mem_cons_of_mem h hh')
      have hw' := setTerminalLabel_wellKeyed t h p hw
      rcases ih hw' hnd'.2 hterm' hok with ⟨hterms, hframe, hlabels⟩
      refine ⟨hterms.trans (setTerminalLabel_terminals t h p hw), ?_, ?_⟩
      · intro j hj
        have hj1 : j ≠ h := fun he => hj (he ▸ List.mem_cons_self h hs)
        have hj2 : j ∉ hs := fun hm => hj (List.mem_cons_of_mem h hm)
        rw [hframe j hj2, setTerminalLabel_getNode_ne t h j p hj1]
      · intro k h' p' hh' hp'
        cases k with
        | zero =>
          simp only [List.getElem?_cons_zero, Option.some_inj] at hh' hp'
          subst hh'
          subst hp'
          rw [hframe h hnd'.1]
          simp [Tree.setTerminalLabel, htm, getNode_setNode_self, Node.label]
        | succ k =>
          simp only [List.getElem?_cons_succ] at hh' hp'
          exact hlabels k h' p' hh' hp'

/-- C6.  `annotate_pos` fails exactly when the number of supplied tags
differs from the number of terminals; on success the terminal handles (in
terminal-position order) are unchanged and the k-th terminal's label is
the k-th supplied tag. -/
theorem c6_annotate_pos (t : Tree) (pos : List String) (hw : t.wellKeyed) :
    ((t.annotate_pos pos).isOk = true ↔ pos.length = t.terminals.length) ∧
    ∀ R, t.annotate_pos pos = .ok R →
      R.terminals = t.terminals ∧
      ∀ (k h : Nat) (p : String), t.terminals[k]? = some h → pos[k]? = some p →
        (R.getNode h).map Node.label = some p := by
  constructor
  · exact annotatePosGo_isOk t.terminals pos t
  · intro R hok
    have := annotatePosGo_ok hw (nodup_terminals hw)
      (fun h hh => getNode_of_mem_terminals hw hh) hok
    exact ⟨this.1, this.2.2⟩

/-- Concrete tree for the C6 witness: two terminals under a root. -/
def twoTermTree : Tree :=
  { nodes := [(0, .nonTerminal ( NonTerminal.mk' "ROOT" (.continuous 0 2))),
              (1, .terminal ( Terminal.mk' "a" "TA" 0)),
              (2, .terminal ( Terminal.mk' "b" "TB" 1))],
    edges := [(0, 1, Edge.default), (0, 2, Edge.default)],
    nextId := 3, root := 0, nTerminals := 2, projectivity := true }

/-- C6 witness: the theorem applied to a concrete two-terminal tree. -/
theorem c6_annotate_pos_witness :
    twoTermTree.wellKeyed ∧
    (((twoTermTree.annotate_pos ["X", "Y"]).isOk = true ↔
        ["X", "Y"].length = twoTermTree.terminals.length) ∧
      ∀ R, twoTermTree.annotate_pos ["X", "Y"] = .ok R →
        R.terminals = twoTermTree.terminals ∧
        ∀ (k h : Nat) (p : String), twoTermTree.terminals[k]? = some h →
          ["X", "Y"][k]? = some p →
          (R.getNode h).map Node.label = some p) :=
  ⟨by decide, c6_annotate_pos twoTermTree ["X", "Y"] (by decide)⟩

/-! ## Claim C9 — conversion to a dependency sentence (`io/conllx.rs`) -/

/-- Shape of a `conllx` token as produced by the conversions: form,
optional lemma, part of speech, and the features rendered to their string
form (`conllx`'s `Features::from_string` keeps the string as given). -/
structure Token where
  form : String
  lemma' : Option String
  pos : Option String
  feats : Option String
deriving DecidableEq, Repr

/-- Token built from a terminal by both conversions. -/
def tokenOfTerminal (tm : Terminal) : Token :=
  { form := tm.form, lemma' := tm.lemma', pos := some tm.label,
    feats := tm.features.map Features.toString }

/-- Translation of `ToConllx::to_conllx`: one token per terminal handle
(`filter_map` drops non-terminal handles), paired with the span lower
bound, sorted by that bound. -/
def Tree.to_conllx (t : Tree) : List Token :=
  let tokens := t.terminals.filterMap fun h =>
    match t.getNode h with
    | some (.terminal tm) => some (tokenOfTerminal tm, tm.idx)
    | _ => none
  (sortByKey Prod.snd tokens).map (·.1)

/-- Translation of the loop of `impl From<Tree> for Sentence`: consumes
the tree, swapping each field out of the terminal (the `set_` methods
return the previous values) before the next handle is read.  The `unwrap`
on a non-terminal handle cannot fire in the source (handles come from
`terminals()`); it is modelled as skipping the handle. -/
def sentenceFromGo : Tree → List Nat → List (Token × Nat) → Tree × List (Token × Nat)
  | t, [], acc => (t, acc)
  | t, h :: rest, acc =>
    match t.getNode h with
    | some (.terminal tm) =>
      let cleared : Terminal :=
        { form := "", label := "", lemma' := none, features := none, idx := tm.idx }
      sentenceFromGo (t.setNode h (.terminal cleared)) rest
        (acc ++ [(tokenOfTerminal tm, tm.idx)])
    | _ => sentenceFromGo t rest acc

/-- Translation of `impl From<Tree> for Sentence`. -/
def Tree.sentenceFrom (t : Tree) : List Token :=
  (sortByKey Prod.snd (sentenceFromGo t t.terminals []).2).map (·.1)

/-- Follows the spec's words (§6, dependency sentence output): sort the
terminals by position and emit, for each, a token with `form`, optional
`lemma`, part-of-speech equal to the terminal label, and the features in
serialized form. -/
def specDepSentence (t : Tree) : List Token :=
  (sortByKey Terminal.idx (t.nodes.filterMap fun p =>
    match p.2 with
    | .terminal tm => some tm
    | .nonTerminal _ => none)).map tokenOfTerminal

theorem insertByKey_map_comm (f : α → β) (k : β → Nat) (k' : α → Nat)
    (hk : ∀ x, k (f x) = k' x) (x : α) (l : List α) :
    insertByKey k (f x) (l.map f) = (insertByKey k' x l).map f := by
  induction l with
  | nil => rfl
  | cons y ys ih =>
    simp only [List.map_cons, insertByKey, hk]
    by_cases h : k' x ≤ k' y
    · rw [if_pos h, if_pos h, List.map_cons, List.map_cons]
    · rw [if_neg h, if_neg h, List.map_cons, ih]

theorem sortByKey_map_comm (f : α → β) (k : β → Nat) (k' : α → Nat)
    (hk : ∀ x, k (f x) = k' x) (l : List α) :
    sortByKey k (l.map f) = (sortByKey k' l).map f := by
  induction l with
  | nil => rfl
  | cons x xs ih =>
    simp only [List.map_cons, sortByKey, ih]
    exact insertByKey_map_comm f k k' hk x (sortByKey k' xs)

theorem insertByKey_pairwise (k : α → Nat) (x : α) (l : List α)
    (hl : l.Pairwise fun a b => k a ≤ k b) :
    (insertByKey k x l).Pairwise fun a b => k a ≤ k b := by
  induction l with
  | nil => simp [insertByKey]
  | cons y ys ih =>
    rcases List.pairwise_cons.mp hl with ⟨hy, hys⟩
    by_cases h : k x ≤ k y
    · rw [insertByKey, if_pos h]
      exact List.pairwise_cons.mpr ⟨by
        intro a ha
        rcases List.mem_cons.mp ha with rfl | ha
        · exact h
        · exact le_trans h (hy a ha), hl⟩
    · rw [insertByKey, if_neg h]
      refine List.pairwise_cons.mpr ⟨?_, ih hys⟩
      intro a ha
      rcases List.mem_cons.mp ((insertByKey_perm k x ys).mem_iff.mp ha) with rfl | ha2
      · exact le_of_not_le h
      · exact hy a ha2

theorem sortByKey_pairwise (k : α → Nat) (l : List α) :
    (sortByKey k l).Pairwise fun a b => k a ≤ k b := by
  induction l with
  | nil => simp [sortByKey]
  | cons x xs ih => exact insertByKey_pairwise k x (sortByKey k xs) ih

theorem sortByKey_eq_self (k : α → Nat) (l : List α)
    (hl : l.Pairwise fun a b => k a ≤ k b) :
    sortByKey k l = l := by
  induction l with
  | nil => rfl
  | cons x xs ih =>
    rcases List.pairwise_cons.mp hl with ⟨hx, hxs⟩
    rw [sortByKey, ih hxs]
    cases xs with
    | nil => rfl
    | cons y ys => rw [insertByKey, if_pos (hx y (List.mem_cons_self y ys))]

theorem filterMap_eq_map_of_mem {f : α → Option β} {g : α → β} {l : List α}
    (h : ∀ x ∈ l, f x = some (g x)) : l.filterMap f = l.map g := by
  induction l with
  | nil => rfl
  | cons x xs ih =>
    rw [List.filterMap_cons, h x (List.mem_cons_self x xs), List.map_cons,
      ih fun y hy => h y (List.mem_cons_of_mem x hy)]

/-- The terminal store entries behind `terminals()`: handle with node. -/
def termEntries (t : Tree) : List (Terminal × Nat) :=
  t.nodes.filterMap fun p =>
    match p.2 with
    | .terminal tm => some (tm, p.1)
    | .nonTerminal _ => none

theorem terminals_eq_termEntries (t : Tree) :
    t.terminals = (sortByKey (fun q : Terminal × Nat => q.1.idx) (termEntries t)).map Prod.snd := by
  unfold Tree.terminals termEntries
  have h1 : (t.nodes.filterMap fun p =>
      match p.2 with
      | .terminal tm => some (tm.idx, p.1)
      | .nonTerminal _ => none)
      = (t.nodes.filterMap fun p =>
          match p.2 with
          | .terminal tm => some (tm, p.1)
          | .nonTerminal _ => none).map fun q : Terminal × Nat => (q.1.idx, q.2) := by
    induction t.nodes with
    | nil => rfl
    | cons p rest ih =>
      rcases p with ⟨i, n⟩
      cases n with
      | terminal tm => simpa [List.filterMap_cons] using ih
      | nonTerminal nt => simpa [List.filterMap_cons] using ih
  rw [h1, sortByKey_map_comm (fun q : Terminal × Nat => (q.1.idx, q.2)) Prod.fst
    (fun q => q.1.idx) (fun q => rfl), List.map_map]
  rfl

theorem mem_termEntries {t : Tree} {q : Terminal × Nat} (hq : q ∈ termEntries t) :
    (q.2, Node.terminal q.1) ∈ t.nodes := by
  unfold termEntries at hq
  rcases List.mem_filterMap.mp hq with ⟨p, hp, hmk⟩
  rcases p with ⟨i, n⟩
  cases n with
  | terminal tm =>
    simp only [Option.some_inj] at hmk
    subst hmk
    exact hp
  | nonTerminal nt => simp at hmk

theorem to_conllx_spec (t : Tree) (hw : t.wellKeyed) :
    t.to_conllx = specDepSentence t := by
  have hres : ∀ q ∈ sortByKey (fun q : Terminal × Nat => q.1.idx) (termEntries t),
      t.getNode q.2 = some (.terminal q.1) := by
    intro q hq
    exact getNode_eq_of_mem hw (mem_termEntries
      ((sortByKey_perm (fun q : Terminal × Nat => q.1.idx) (termEntries t)).mem_iff.mp hq))
  have h3 : (t.nodes.filterMap fun p =>
      match p.2 with
      | .terminal tm => some tm
      | .nonTerminal _ => none) = (termEntries t).map Prod.fst := by
    unfold termEntries
    induction t.nodes with
    | nil => rfl
    | cons p rest ih =>
      rcases p with ⟨i, n⟩
      cases n with
      | terminal tm => simpa [List.filterMap_cons] using ih
      | nonTerminal nt => simpa [List.filterMap_cons] using ih
  show (sortByKey Prod.snd (t.terminals.filterMap fun h =>
      match t.getNode h with
      | some (.terminal tm) => some (tokenOfTerminal tm, tm.idx)
      | _ => none)).map (·.1) = specDepSentence t
  rw [terminals_eq_termEntries t, List.filterMap_map]
  rw [@filterMap_eq_map_of_mem _ _ _ (fun q : Terminal × Nat => (tokenOfTerminal q.1, q.1.idx)) _
    (fun q hq => by simp only [Function.comp_apply, hres q hq])]
  have hpair : ((sortByKey (fun q : Terminal × Nat => q.1.idx) (termEntries t)).map
      (fun q : Terminal × Nat => (tokenOfTerminal q.1, q.1.idx))).Pairwise
      (fun a b => Prod.snd a ≤ Prod.snd b) :=
    List.Pairwise.map _ (fun a b h => h)
      (sortByKey_pairwise (fun q : Terminal × Nat => q.1.idx) (termEntries t))
  rw [sortByKey_eq_self _ _ hpair]
  unfold specDepSentence
  rw [h3, sortByKey_map_comm Prod.fst Terminal.idx (fun q : Terminal × Nat => q.1.idx)
    (fun q => rfl), List.map_map, List.map_map]
  rfl

theorem sentenceFromGo_spec (hs : List Nat) (t : Tree) (acc : List (Token × Nat))
    (hnd : hs.Nodup) :
    (sentenceFromGo t hs acc).2 = acc ++ hs.filterMap fun h =>
      match t.getNode h with
      | some (.terminal tm) => some (tokenOfTerminal tm, tm.idx)
      | _ => none := by
  induction hs generalizing t acc with
  | nil => simp [sentenceFromGo]
  | cons h rest ih =>
    rcases List.nodup_cons.mp hnd with ⟨hh, hrest⟩
    rw [List.filterMap_cons]
    cases hn : t.getNode h with
    | none => simp only [sentenceFromGo, hn]; exact ih t acc hrest
    | some n =>
      cases n with
      | nonTerminal nt => simp only [sentenceFromGo, hn]; exact ih t acc hrest
      | terminal tm =>
        simp only [sentenceFromGo, hn]
        rw [ih _ _ hrest, List.append_assoc]
        congr 1
        rw [List.singleton_append]
        congr 1
        apply List.filterMap_congr
        intro h' hh'
        rw [getNode_setNode_ne t h h' _ fun he => hh (he ▸ hh')]

/-- C9.  The borrowed conversion `to_conllx` and the owned conversion
`Sentence::from` produce the same dependency sentence, and both match the
spec-worded form: one token per terminal, sorted by terminal position,
with form, optional lemma, part-of-speech equal to the label, and the
features serialized. -/
theorem c9_conllx_equivalent (t : Tree) (hw : t.wellKeyed) :
    t.to_conllx = t.sentenceFrom ∧ t.to_conllx = specDepSentence t := by
  constructor
  · unfold Tree.to_conllx Tree.sentenceFrom
    rw [sentenceFromGo_spec t.terminals t [] (nodup_terminals hw), List.nil_append]
  · exact to_conllx_spec t hw

/-- C9 witness: the equivalence on the concrete two-terminal tree. -/
theorem c9_conllx_equivalent_witness :
    twoTermTree.wellKeyed ∧
    (twoTermTree.to_conllx = twoTermTree.sentenceFrom ∧
      twoTermTree.to_conllx = specDepSentence twoTermTree) :=
  ⟨by decide, c9_conllx_equivalent twoTermTree (by decide)⟩

/-! ## Frame toolkit: how each graph operation affects queries

These lemmas track `parent`, `children` and `getNode` across the edge and
node mutations used by the surgery algorithms. -/

/-- Unique-incoming-edge invariant (I1): edge targets are pairwise
distinct, so every node has at most one incoming edge. -/
def Tree.targetsNodup (t : Tree) : Prop :=
  (t.edges.map fun e => e.2.1).Nodup

instance (t : Tree) : Decidable t.targetsNodup := by
  unfold Tree.targetsNodup
  infer_instance

/-- All node handles in the store are below `nextId`. -/
def Tree.idsBounded (t : Tree) : Prop :=
  ∀ p ∈ t.nodes, p.1 < t.nextId

instance (t : Tree) : Decidable t.idsBounded := by
  unfold Tree.idsBounded
  exact List.decidableBAll _ t.nodes

/-- All edge endpoints are below `nextId`. -/
def Tree.edgesBounded (t : Tree) : Prop :=
  ∀ e ∈ t.edges, e.1 < t.nextId ∧ e.2.1 < t.nextId

instance (t : Tree) : Decidable t.edgesBounded := by
  unfold Tree.edgesBounded
  exact List.decidableBAll _ t.edges

theorem find?_append' (p : α → Bool) (l1 l2 : List α) :
    List.find? p (l1 ++ l2) =
      match List.find? p l1 with
      | some x => some x
      | none => List.find? p l2 := by
  induction l1 with
  | nil => simp
  | cons x xs ih =>
    by_cases h : p x
    · rw [List.cons_append, List.find?_cons_of_pos _ h, List.find?_cons_of_pos _ h]
    · rw [List.cons_append, List.find?_cons_of_neg _ h, List.find?_cons_of_neg _ h, ih]

theorem parent_addEdge_ne (t : Tree) (u v : Nat) (w : Edge) (j : Nat) (hne : j ≠ v) :
    (t.addEdge u v w).parent j = t.parent j := by
  unfold Tree.parent Tree.addEdge
  simp only
  rw [find?_append']
  cases hf : t.edges.find? fun e => e.2.1 == j with
  | some e => rfl
  | none =>
    rw [List.find?_cons_of_neg _ (by simp [Ne.symm hne]), List.find?_nil]

theorem parent_addEdge_self (t : Tree) (u v : Nat) (w : Edge)
    (hnone : t.parent v = none) :
    (t.addEdge u v w).parent v = some (u, w) := by
  unfold Tree.parent Tree.addEdge
  unfold Tree.parent at hnone
  simp only
  rw [find?_append']
  cases hf : t.edges.find? fun e => e.2.1 == v with
  | some e => rw [hf] at hnone; simp at hnone
  | none => rw [List.find?_cons_of_pos _ (by simp)]; rfl

theorem eraseP_of_disjoint (p q : α → Bool) (l : List α)
    (hd : ∀ x ∈ l, p x = true → q x = false) :
    List.find? q (l.eraseP p) = List.find? q l := by
  induction l with
  | nil => rfl
  | cons x xs ih =>
    by_cases hp : p x
    · rw [List.eraseP_cons_of_pos hp, List.find?_cons_of_neg _ (by
        rw [hd x (List.mem_cons_self x xs) hp]; simp)]
    · rw [List.eraseP_cons_of_neg hp]
      by_cases hq : q x
      · rw [List.find?_cons_of_pos _ hq, List.find?_cons_of_pos _ hq]
      · rw [List.find?_cons_of_neg _ hq, List.find?_cons_of_neg _ hq]
        exact ih fun y hy => hd y (List.mem_cons_of_mem x hy)

theorem removeParentEdge_nodes (t : Tree) (i : Nat) :
    (t.removeParentEdge i).2.nodes = t.nodes := by
  unfold Tree.removeParentEdge
  cases t.edges.find? fun e => e.2.1 == i with
  | some e => rfl
  | none => rfl

theorem removeParentEdge_misc (t : Tree) (i : Nat) :
    (t.removeParentEdge i).2.nextId = t.nextId ∧
    (t.removeParentEdge i).2.root = t.root ∧
    (t.removeParentEdge i).2.getNode = t.getNode := by
  refine ⟨?_, ?_, ?_⟩ <;>
    (unfold Tree.removeParentEdge
     cases t.edges.find? fun e => e.2.1 == i with
     | some e => rfl
     | none => rfl)

theorem parent_removeParentEdge_ne (t : Tree) (i j : Nat) (hne : j ≠ i) :
    (t.removeParentEdge i).2.parent j = t.parent j := by
  unfold Tree.removeParentEdge
  cases hf : t.edges.find? fun e => e.2.1 == i with
  | some e =>
    show Tree.parent _ j = t.parent j
    unfold Tree.parent
    simp only
    rw [eraseP_of_disjoint _ _ _ ?_]
    intro x _ hx
    have hxx : x.2.1 = i := by simpa using hx
    simp [hxx, Ne.symm hne]
  | none => rfl

theorem find?_eraseP_self {l : List (Nat × Nat × Edge)} {i : Nat}
    (hnd : (l.map fun e => e.2.1).Nodup) :
    (l.eraseP fun e => e.2.1 == i).find? (fun e => e.2.1 == i) = none := by
  induction l with
  | nil => rfl
  | cons e es ih =>
    rw [List.map_cons] at hnd
    rcases List.nodup_cons.mp hnd with ⟨he, hes⟩
    by_cases hp : e.2.1 = i
    · rw [List.eraseP_cons_of_pos (by simp [hp]), List.find?_eq_none]
      intro x hx hq
      have hxx : x.2.1 = i := by simpa using hq
      exact he (List.mem_map.mpr ⟨x, hx, by simp [hxx, hp]⟩)
    · rw [List.eraseP_cons_of_neg (by simp [hp]), List.find?_cons_of_neg _ (by simp [hp])]
      exact ih hes

theorem parent_removeParentEdge_self (t : Tree) (i : Nat) (hnd : t.targetsNodup) :
    (t.removeParentEdge i).2.parent i = none := by
  unfold Tree.removeParentEdge
  cases hf : t.edges.find? fun e => e.2.1 == i with
  | some e =>
    show Tree.parent _ i = none
    unfold Tree.parent
    simp only
    rw [find?_eraseP_self hnd]
    rfl
  | none =>
    show t.parent i = none
    unfold Tree.parent
    rw [hf]
    rfl

theorem getNode_addNode_ne (t : Tree) (n : Node) (j : Nat) (hne : j ≠ t.nextId) :
    (t.addNode n).1.getNode j = t.getNode j := by
  unfold Tree.getNode Tree.addNode
  simp only
  rw [find?_append']
  cases hf : t.nodes.find? fun p => p.1 == j with
  | some e => rfl
  | none => rw [List.find?_cons_of_neg _ (by simp [Ne.symm hne]), List.find?_nil]

theorem getNode_addNode_self (t : Tree) (n : Node) (hb : t.idsBounded) :
    (t.addNode n).1.getNode t.nextId = some n := by
  unfold Tree.getNode Tree.addNode
  simp only
  rw [find?_append']
  rw [show t.nodes.find? (fun p => p.1 == t.nextId) = none from ?_]
  · rw [List.find?_cons_of_pos _ (by simp)]
    rfl
  · rw [List.find?_eq_none]
    intro p hp hq
    exact absurd (by simpa using hq) (Nat.ne_of_lt (hb p hp))

theorem parent_addNode (t : Tree) (n : Node) (j : Nat) :
    (t.addNode n).1.parent j = t.parent j := rfl

theorem children_addNode (t : Tree) (n : Node) (j : Nat) :
    (t.addNode n).1.children j = t.children j := rfl

theorem children_setNode (t : Tree) (i : Nat) (n : Node) (j : Nat) :
    (t.setNode i n).children j = t.children j := rfl

theorem parent_setNode (t : Tree) (i : Nat) (n : Node) (j : Nat) :
    (t.setNode i n).parent j = t.parent j := rfl

theorem children_addEdge (t : Tree) (u v : Nat) (w : Edge) (j : Nat) :
    (t.addEdge u v w).children j =
      t.children j ++ (if u == j then [(v, w)] else []) := by
  unfold Tree.children Tree.addEdge
  simp only
  rw [List.filterMap_append]
  congr 1
  by_cases h : u = j <;> simp [h]

theorem filterMap_eraseP_of_none (f : α → Option β) (p : α → Bool) (l : List α)
    (hd : ∀ x ∈ l, p x = true → f x = none) :
    List.filterMap f (l.eraseP p) = List.filterMap f l := by
  induction l with
  | nil => rfl
  | cons x xs ih =>
    by_cases hp : p x
    · rw [List.eraseP_cons_of_pos hp, List.filterMap_cons,
        hd x (List.mem_cons_self x xs) hp]
    · rw [List.eraseP_cons_of_neg hp, List.filterMap_cons, List.filterMap_cons,
        ih fun y hy => hd y (List.mem_cons_of_mem x hy)]

theorem children_removeParentEdge (t : Tree) (i j : Nat)
    (hd : ∀ e ∈ t.edges, e.2.1 = i → e.1 ≠ j) :
    (t.removeParentEdge i).2.children j = t.children j := by
  unfold Tree.removeParentEdge
  cases hf : t.edges.find? fun e => e.2.1 == i with
  | some e =>
    show Tree.children _ j = t.children j
    unfold Tree.children
    simp only
    apply filterMap_eraseP_of_none
    intro x hx hp
    have hx1 : x.2.1 = i := by simpa using hp
    simp [hd x hx hx1]
  | none => rfl

theorem targetsNodup_removeParentEdge (t : Tree) (i : Nat) (hnd : t.targetsNodup) :
    (t.removeParentEdge i).2.targetsNodup := by
  unfold Tree.removeParentEdge
  cases hf : t.edges.find? fun e => e.2.1 == i with
  | some e =>
    show Tree.targetsNodup _
    unfold Tree.targetsNodup
    exact hnd.sublist ((List.eraseP_sublist _).map _)
  | none => exact hnd

theorem targetsNodup_addEdge (t : Tree) (u v : Nat) (w : Edge)
    (hnd : t.targetsNodup) (hv : t.parent v = none) :
    (t.addEdge u v w).targetsNodup := by
  unfold Tree.targetsNodup Tree.addEdge
  simp only [List.map_append, List.map_cons, List.map_nil]
  have hvnot : v ∉ t.edges.map fun e => e.2.1 := by
    intro hmem
    rcases List.mem_map.mp hmem with ⟨e, he, hev⟩
    unfold Tree.parent at hv
    rw [Option.map_eq_none', List.find?_eq_none] at hv
    exact hv e he (by simp [hev])
  have := @List.nodup_middle _ v (t.edges.map fun e => e.2.1) []
  rw [show (t.edges.map fun e => e.2.1) ++ [v] =
    (t.edges.map fun e => e.2.1) ++ v :: [] from rfl]
  rw [this]
  exact List.nodup_cons.mpr ⟨by simpa using hvnot, by simpa using hnd⟩

theorem find?_target_of_nodup {l : List (Nat × Nat × Edge)} {u j : Nat} {w : Edge}
    (hnd : (l.map fun e => e.2.1).Nodup) (hmem : (u, j, w) ∈ l) :
    l.find? (fun e => e.2.1 == j) = some (u, j, w) := by
  induction l with
  | nil => cases hmem
  | cons e es ih =>
    rw [List.map_cons] at hnd
    rcases List.nodup_cons.mp hnd with ⟨he, hes⟩
    rcases List.mem_cons.mp hmem with h | h
    · subst h
      exact List.find?_cons_of_pos es (by simp)
    · have hne : e.2.1 ≠ j := fun heq => he (heq ▸ (List.mem_map.mpr ⟨(u, j, w), h, rfl⟩))
      rw [List.find?_cons_of_neg _ (by simp [hne])]
      exact ih hes h

theorem parent_eq_of_mem_edges {t : Tree} {u j : Nat} {w : Edge}
    (hnd : t.targetsNodup) (hmem : (u, j, w) ∈ t.edges) :
    t.parent j = some (u, w) := by
  unfold Tree.parent
  rw [find?_target_of_nodup hnd hmem]
  rfl

theorem updateEdgeList_none (u v : Nat) (w : Edge) (l : List (Nat × Nat × Edge))
    (hnone : ∀ e ∈ l, ¬ (e.1 = u ∧ e.2.1 = v)) :
    updateEdgeList u v w l = none := by
  induction l with
  | nil => rfl
  | cons e es ih =>
    unfold updateEdgeList
    have hcond : ¬ ((e.1 == u && e.2.1 == v) = true) := by
      intro hcon
      rw [Bool.and_eq_true] at hcon
      exact hnone e (List.mem_cons_self e es) ⟨by simpa using hcon.1, by simpa using hcon.2⟩
    rw [if_neg hcond, ih fun x hx => hnone x (List.mem_cons_of_mem e hx)]
    rfl

theorem updateEdge_eq_addEdge (t : Tree) (u v : Nat) (w : Edge)
    (hv : t.parent v = none) :
    t.updateEdge u v w = t.addEdge u v w := by
  unfold Tree.updateEdge
  rw [updateEdgeList_none u v w t.edges ?_]
  intro e he hcon
  unfold Tree.parent at hv
  rw [Option.map_eq_none', List.find?_eq_none] at hv
  exact hv e he (by simp [hcon.2])

theorem covered_singleton (j : Nat) : (Span.continuous j (j + 1)).covered = [j] := by
  simp [Span.covered, Span.skips, Span.lower, Span.upper]

theorem dedupSorted_eq_self : ∀ (l : List Nat), l.Pairwise (· < ·) → dedupSorted l = l
  | [], _ => rfl
  | [_], _ => rfl
  | x :: y :: rest, h => by
    rcases List.pairwise_cons.mp h with ⟨hx, hrest⟩
    have hne : x ≠ y := Nat.ne_of_lt (hx y (List.mem_cons_self y rest))
    rw [dedupSorted, if_neg hne, dedupSorted_eq_self (y :: rest) hrest]

theorem range'_getLastD (a n x : Nat) : (List.range' a (n + 1)).getLastD x = a + n := by
  induction n generalizing a x with
  | zero => simp [List.range']
  | succ m ih =>
    rw [List.range'_succ, List.getLastD_cons, ih (a + 1) a]
    omega

theorem spanFromPositions_range' (a m : Nat) :
    spanFromPositions (List.range' a (m + 1)) = some (.continuous a (a + (m + 1))) := by
  have hcons : List.range' a (m + 1) = a :: List.range' (a + 1) m := List.range'_succ a m 1
  have hlast : (List.range' a (m + 1)).getLastD a = a + m := range'_getLastD a m a
  have hfilter : (List.range' a (a + m + 1 - a)).filter
      (fun i => ¬ (List.range' a (m + 1)).contains i) = [] := by
    rw [List.filter_eq_nil_iff]
    intro x hx
    rw [show a + m + 1 - a = m + 1 from by omega] at hx
    simp [hx]
  rw [hcons]
  simp only [spanFromPositions]
  rw [← hcons, hlast, hfilter]
  simp [Nat.add_assoc]

theorem extendSpan_edges_misc (t : Tree) (i : Nat) :
    (t.extendSpan i).edges = t.edges ∧ (t.extendSpan i).nextId = t.nextId ∧
    (t.extendSpan i).root = t.root := by
  unfold Tree.extendSpan
  cases t.getNode i with
  | none => exact ⟨rfl, rfl, rfl⟩
  | some n =>
    cases n with
    | terminal tm => exact ⟨rfl, rfl, rfl⟩
    | nonTerminal nt =>
      cases spanFromPositions (dedupSorted (sortByKey id
          ((t.children i).flatMap fun c => (t.spanAt c.1).covered))) with
      | none => exact ⟨rfl, rfl, rfl⟩
      | some sp => exact ⟨rfl, rfl, rfl⟩

theorem getNode_extendSpan_ne (t : Tree) (i j : Nat) (hne : j ≠ i) :
    (t.extendSpan i).getNode j = t.getNode j := by
  unfold Tree.extendSpan
  cases t.getNode i with
  | none => rfl
  | some n =>
    cases n with
    | terminal tm => rfl
    | nonTerminal nt =>
      cases spanFromPositions (dedupSorted (sortByKey id
          ((t.children i).flatMap fun c => (t.spanAt c.1).covered))) with
      | none => rfl
      | some sp => exact getNode_setNode_ne t i j _ hne

theorem nodes_keys_extendSpan (t : Tree) (i : Nat) :
    (t.extendSpan i).nodes.map Prod.fst = t.nodes.map Prod.fst := by
  unfold Tree.extendSpan
  cases t.getNode i with
  | none => rfl
  | some n =>
    cases n with
    | terminal tm => rfl
    | nonTerminal nt =>
      cases spanFromPositions (dedupSorted (sortByKey id
          ((t.children i).flatMap fun c => (t.spanAt c.1).covered))) with
      | none => rfl
      | some sp => exact setNode_keys t i _

theorem extendSpan_eq (t : Tree) (i : Nat) (nt : NonTerminal) (a m : Nat)
    (hn : t.getNode i = some (.nonTerminal nt))
    (hcov : ((t.children i).flatMap fun c => (t.spanAt c.1).covered)
      = List.range' a (m + 1)) :
    t.extendSpan i
      = t.setNode i (.nonTerminal { nt with span := .continuous a (a + (m + 1)) }) := by
  unfold Tree.extendSpan
  rw [hcov, hn]
  have hlt := List.pairwise_lt_range' a (m + 1) 1
  have hsort : sortByKey id (List.range' a (m + 1)) = List.range' a (m + 1) :=
    sortByKey_eq_self id _ (hlt.imp fun {x y} h => Nat.le_of_lt h)
  rw [hsort, dedupSorted_eq_self _ hlt, spanFromPositions_range']

theorem parent_none_of_ge (t : Tree) (j : Nat) (hb : t.edgesBounded)
    (hj : t.nextId ≤ j) : t.parent j = none := by
  unfold Tree.parent
  rw [Option.map_eq_none', List.find?_eq_none]
  intro e he hq
  have := (hb e he).2
  have : e.2.1 = j := by simpa using hq
  omega

theorem children_none_of_ge (t : Tree) (j : Nat) (hb : t.edgesBounded)
    (hj : t.nextId ≤ j) : t.children j = [] := by
  unfold Tree.children
  rw [List.filterMap_eq_nil_iff]
  intro e he
  have h1 := (hb e he).1
  rw [if_neg ?_]
  intro hq
  have : e.1 = j := by simpa using hq
  omega

/-! ## Claim C5 — `insert_intermediate` -/

/-- Acceptance of a terminal's original parent label. -/
def origAccepted (t : Tree) (tagSet : LabelSet) (h : Nat) : Bool :=
  match t.parent h with
  | some pw => tagSet.matches (t.labelAt pw.1)
  | none => true

/-- State of the current insertion run: last processed position `pp`, its
insertion node `pi`, the run start `a`, and the parent edge of `pi`. -/
structure RunInfo where
  pp : Nat
  pi : Nat
  a : Nat
  prevPar : Nat
  wpar : Edge

/-- Facts carried about the insertion node of the active run. -/
structure PrevFacts (t T : Tree) (lbl : String) (L : List (Nat × Nat)) (r : RunInfo) : Prop where
  ge : t.nextId ≤ r.pi
  lt : r.pi < T.nextId
  a_le : r.a ≤ r.pp
  node : T.getNode r.pi = some (.nonTerminal ⟨lbl, none, .continuous r.a (r.pp + 1)⟩)
  par : T.parent r.pi = some (r.prevPar, r.wpar)
  cov : ((T.children r.pi).flatMap fun c => (T.spanAt c.1).covered)
      = List.range' r.a (r.pp + 1 - r.a)
  childLt : ∀ c ∈ T.children r.pi, c.1 < t.nextId
  freshChild : ∀ kh ∈ L, kh.2 ∉ (T.children r.pi).map Prod.fst

/-- Relation between the loop's `prev_attachment` state and the run facts. -/
def PrevRel (t T : Tree) (lbl : String) (L : List (Nat × Nat)) (start : Nat) :
    Option (Nat × Nat) → Prop
  | none => True
  | some (pp, pi) =>
    pp + 1 ≤ start ∧ ∃ r : RunInfo, r.pp = pp ∧ r.pi = pi ∧ PrevFacts t T lbl L r

theorem parent_mem_edges {t : Tree} {h p : Nat} {w : Edge}
    (hp : t.parent h = some (p, w)) : (p, h, w) ∈ t.edges := by
  unfold Tree.parent at hp
  cases hf : t.edges.find? fun e => e.2.1 == h with
  | none => rw [hf] at hp; cases hp
  | some e =>
    rw [hf] at hp
    have hmem := List.mem_of_find?_eq_some hf
    have htgt : e.2.1 = h := by simpa using List.find?_some hf
    rcases e with ⟨e1, e2, e3⟩
    simp only at htgt
    injection hp with hp
    subst htgt
    rcases Prod.mk.injEq .. |>.mp hp with ⟨hp1, hp2⟩
    simp only at hp1 hp2
    subst hp1
    subst hp2
    exact hmem

/-- Per-element facts about the remaining enumerated terminal list. -/
abbrev InsertLFacts (t : Tree) (L : List (Nat × Nat)) (start : Nat) : Prop :=
  L.map Prod.fst = List.range' start L.length ∧
  (L.map Prod.snd).Nodup ∧
  (∀ kh ∈ L, ∃ tm, t.getNode kh.2 = some (.terminal tm) ∧ tm.idx = kh.1) ∧
  (∀ kh ∈ L, kh.2 < t.nextId)

/-- Invariant relating the current tree to the original one. -/
abbrev InsertHyps (t T : Tree) (L : List (Nat × Nat)) : Prop :=
  t.nextId ≤ T.nextId ∧ T.idsBounded ∧ T.edgesBounded ∧ T.targetsNodup ∧
  (∀ j, j < t.nextId → T.getNode j = t.getNode j) ∧
  (∀ kh ∈ L, T.parent kh.2 = t.parent kh.2)

/-- Conclusions of the loop characterization. -/
abbrev InsertGoal (t : Tree) (tagSet : LabelSet) (lbl : String)
    (L : List (Nat × Nat)) (T : Tree) (prev : Option (Nat × Nat)) (R : Tree) : Prop :=
  (∀ kh ∈ L, origAccepted t tagSet kh.2 = true → R.parent kh.2 = t.parent kh.2)
  ∧ (∀ kh ∈ L, origAccepted t tagSet kh.2 = false →
      ∃ ins a e, t.nextId ≤ ins ∧ a ≤ kh.1 ∧ kh.1 ≤ e ∧
        R.getNode ins = some (.nonTerminal ⟨lbl, none, .continuous a (e + 1)⟩) ∧
        (∀ p w, t.parent kh.2 = some (p, w) →
          R.parent kh.2 = some (ins, w) ∧ R.parentNode ins = some p))
  ∧ (∀ k h h', (k, h) ∈ L → (k + 1, h') ∈ L →
      origAccepted t tagSet h = false → origAccepted t tagSet h' = false →
      (R.parentNode h = R.parentNode h' ↔ t.parentNode h = t.parentNode h'))
  ∧ (∀ k0 h0 L', L = (k0, h0) :: L' → origAccepted t tagSet h0 = false →
      ∃ ins0, R.parentNode h0 = some ins0 ∧
        (∀ pp pi, prev = some (pp, pi) →
          ((pp = k0 - 1 ∧ T.parentNode pi = t.parentNode h0) → ins0 = pi) ∧
          (¬ (pp = k0 - 1 ∧ T.parentNode pi = t.parentNode h0) → T.nextId ≤ ins0)) ∧
        (prev = none → T.nextId ≤ ins0))
  ∧ (∀ x, x < T.nextId → (∀ kh ∈ L, x ≠ kh.2) → R.parent x = T.parent x)
  ∧ (∀ j, j < T.nextId → (∀ pp pi, prev = some (pp, pi) → j ≠ pi) →
      R.getNode j = T.getNode j)
  ∧ (∀ r : RunInfo, prev = some (r.pp, r.pi) → PrevFacts t T lbl L r →
      ∃ e, r.pp ≤ e ∧
        R.getNode r.pi = some (.nonTerminal ⟨lbl, none, .continuous r.a (e + 1)⟩) ∧
        R.parent r.pi = T.parent r.pi)

/-- Induction-hypothesis shape for the tail of the list. -/
abbrev InsertIH (t : Tree) (tagSet : LabelSet) (lbl : String) (L' : List (Nat × Nat)) : Prop :=
  ∀ (T : Tree) (prev : Option (Nat × Nat)) (start : Nat) (R : Tree),
    insertIntermediateGo tagSet lbl T prev L' = .ok R →
    InsertLFacts t L' start → InsertHyps t T L' → PrevRel t T lbl L' start prev →
    InsertGoal t tagSet lbl L' T prev R

theorem removeParentEdge_eq (t : Tree) (i q : Nat) (w : Edge)
    (hp : t.parent i = some (q, w)) :
    t.removeParentEdge i = (w, { t with edges := t.edges.eraseP fun e => e.2.1 == i }) := by
  unfold Tree.removeParentEdge
  unfold Tree.parent at hp
  cases hf : t.edges.find? fun e => e.2.1 == i with
  | none => rw [hf] at hp; cases hp
  | some e =>
    rw [hf] at hp
    injection hp with hp
    rcases e with ⟨e1, e2, e3⟩
    simp only at hp
    have h3 : e3 = w := (Prod.mk.injEq .. |>.mp hp).2
    rw [h3]

theorem flatMap_congr {l : List α} {f g : α → List β}
    (h : ∀ x ∈ l, f x = g x) : l.flatMap f = l.flatMap g := by
  induction l with
  | nil => rfl
  | cons x xs ih =>
    rw [List.flatMap_cons, List.flatMap_cons, h x (List.mem_cons_self _ _),
      ih fun y hy => h y (List.mem_cons_of_mem _ hy)]

theorem insertGo_fresh_step {t : Tree} (tagSet : LabelSet) (lbl : String)
    (hidst : t.idsBounded) (hedgest : t.edgesBounded)
    {k h start : Nat} {L' : List (Nat × Nat)} {T T1 : Tree} {prev : Option (Nat × Nat)}
    {R : Tree} (ihL' : InsertIH t tagSet lbl L')
    {p : Nat} {w : Edge} (hp : t.parent h = some (p, w))
    (hacc : ¬ tagSet.matches (t.labelAt p) = true)
    (hLf : InsertLFacts t ((k, h) :: L') start)
    (hH : InsertHyps t T ((k, h) :: L'))
    (hprev : PrevRel t T lbl ((k, h) :: L') start prev)
    (hT1 : T1 = { T with edges := T.edges.eraseP fun e => e.2.1 == h })
    (hok4 : insertIntermediateGo tagSet lbl
      (((T1.addNode (Node.nonTerminal (NonTerminal.mk' lbl (T1.spanAt h)))).1.addEdge p
          (T1.addNode (Node.nonTerminal (NonTerminal.mk' lbl (T1.spanAt h)))).2 w).addEdge
        (T1.addNode (Node.nonTerminal (NonTerminal.mk' lbl (T1.spanAt h)))).2 h w)
      (some (k, (T1.addNode (Node.nonTerminal (NonTerminal.mk' lbl (T1.spanAt h)))).2)) L'
      = .ok R)
    (hnoshare : ∀ pp pi, prev = some (pp, pi) →
      ¬ (pp = k - 1 ∧ T.parentNode pi = t.parentNode h)) :
    InsertGoal t tagSet lbl ((k, h) :: L') T prev R := by
  obtain ⟨hcons, hnd, horig, hhandle⟩ := hLf
  obtain ⟨hge, hids, hedges, htnd, horigN, hpar⟩ := hH
  rw [List.map_cons, List.length_cons, List.range'_succ] at hcons
  injection hcons with hk hcons'
  rw [List.map_cons] at hnd
  rcases List.nodup_cons.mp hnd with ⟨hh_notin, hnd'⟩
  rcases horig (k, h) (List.mem_cons_self _ _) with ⟨tm, htm, htmidx⟩
  have hh_lt : h < t.nextId := hhandle (k, h) (List.mem_cons_self _ _)
  have hparent_head : T.parent h = t.parent h := hpar (k, h) (List.mem_cons_self _ _)
  have hpT : T.parent h = some (p, w) := hparent_head.trans hp
  have hHne : ∀ kh' ∈ L', h ≠ kh'.2 := fun kh' hkh' heq =>
    hh_notin (List.mem_map.mpr ⟨kh', hkh', heq.symm⟩)
  have hacc_iff : origAccepted t tagSet h = tagSet.matches (t.labelAt p) := by
    unfold origAccepted
    rw [hp]
  have hT1eq : T1 = (T.removeParentEdge h).2 := by
    rw [removeParentEdge_eq T h p w hpT, hT1]
  have hT1nodes : T1.nodes = T.nodes := by rw [hT1]
  have hT1next : T1.nextId = T.nextId := by rw [hT1]
  have hT1get : ∀ j, T1.getNode j = T.getNode j := by
    intro j
    rw [hT1eq, (removeParentEdge_misc T h).2.2]
  have hT1parh : T1.parent h = none := by
    rw [hT1eq]
    exact parent_removeParentEdge_self T h htnd
  have hT1par_ne : ∀ j, j ≠ h → T1.parent j = T.parent j := fun j hj => by
    rw [hT1eq]
    exact parent_removeParentEdge_ne T h j hj
  have hT1tnd : T1.targetsNodup := by
    rw [hT1eq]
    exact targetsNodup_removeParentEdge T h htnd
  have hT1edgesB : T1.edgesBounded := by
    intro e he
    rw [hT1] at he
    have := hedges e ((List.eraseP_sublist _).subset he)
    rw [hT1next]
    exact this
  have hT1ids : T1.idsBounded := by
    intro q hq
    rw [hT1nodes] at hq
    rw [hT1next]
    exact hids q hq
  have hgetTh : T.getNode h = t.getNode h := horigN h hh_lt
  have hspanT1 : T1.spanAt h = Span.continuous k (k + 1) := by
    unfold Tree.spanAt
    rw [hT1get h, hgetTh, htm]
    simp [Node.span, htmidx]
  rw [hspanT1] at hok4
  set NTn : Node := Node.nonTerminal (NonTerminal.mk' lbl (Span.continuous k (k + 1))) with hNTn
  have hins2 : (T1.addNode NTn).2 = T.nextId :=
    (rfl : (T1.addNode NTn).2 = T1.nextId).trans hT1next
  rw [hins2] at hok4
  set T2 : Tree := (T1.addNode NTn).1 with hT2
  set T4 : Tree := (T2.addEdge p T.nextId w).addEdge T.nextId h w with hT4
  -- facts about T2
  have hT2next : T2.nextId = T.nextId + 1 := by
    rw [hT2]
    show T1.nextId + 1 = T.nextId + 1
    rw [hT1next]
  have hT2get_ne : ∀ j, j ≠ T.nextId → T2.getNode j = T1.getNode j := by
    intro j hj
    rw [hT2]
    exact getNode_addNode_ne T1 NTn j (by rw [hT1next]; exact hj)
  have hT2get_self : T2.getNode T.nextId = some NTn := by
    rw [hT2, ← hT1next]
    exact getNode_addNode_self T1 NTn hT1ids
  have hT2par : ∀ j, T2.parent j = T1.parent j := fun j => rfl
  have hT2edges : T2.edges = T1.edges := rfl
  have hT2ids : T2.idsBounded := by
    intro q hq
    rw [hT2next]
    rcases List.mem_append.mp hq with hq1 | hq2
    · exact Nat.lt_succ_of_lt (hT1ids q hq1 |>.trans_le (Nat.le_of_eq hT1next) |>.trans_le (Nat.le_refl _))
    · rcases List.mem_singleton.mp hq2 with rfl
      show T1.nextId < T.nextId + 1
      rw [hT1next]
      exact Nat.lt_succ_self _
  have hT2edgesB : T2.edgesBounded := by
    intro e he
    have := hT1edgesB e he
    rw [hT2next]
    rw [hT1next] at this
    exact ⟨Nat.lt_succ_of_lt this.1, Nat.lt_succ_of_lt this.2⟩
  have hT2tnd : T2.targetsNodup := hT1tnd
  -- parents of the new node chain
  have hT1parIns : T1.parent T.nextId = none :=
    parent_none_of_ge T1 T.nextId hT1edgesB (Nat.le_of_eq hT1next)
  have hT3parIns : (T2.addEdge p T.nextId w).parent T.nextId = some (p, w) :=
    parent_addEdge_self T2 p T.nextId w ((hT2par _).trans hT1parIns)
  have hT4parIns : T4.parent T.nextId = some (p, w) := by
    rw [hT4]
    rw [parent_addEdge_ne _ T.nextId h w T.nextId (by
      intro he
      have := hh_lt.trans_le hge
      omega)]
    exact hT3parIns
  have hT3parh : (T2.addEdge p T.nextId w).parent h = none := by
    rw [parent_addEdge_ne T2 p T.nextId w h (by
      intro he
      have := hh_lt.trans_le hge
      omega)]
    rw [hT2par]
    exact hT1parh
  have hT4parh : T4.parent h = some (T.nextId, w) := by
    rw [hT4]
    exact parent_addEdge_self _ T.nextId h w hT3parh
  have hT4par_ne : ∀ j, j ≠ h → j ≠ T.nextId → T4.parent j = T1.parent j := by
    intro j hj1 hj2
    rw [hT4, parent_addEdge_ne _ T.nextId h w j hj1,
      parent_addEdge_ne T2 p T.nextId w j hj2, hT2par]
  have hT4get : ∀ j, T4.getNode j = T2.getNode j := fun j => rfl
  have hT4next : T4.nextId = T.nextId + 1 := hT2next
  have hT4ids : T4.idsBounded := hT2ids
  have hT4edgesB : T4.edgesBounded := by
    intro e he
    rcases List.mem_append.mp he with he1 | he2
    · rcases List.mem_append.mp he1 with he3 | he4
      · have := hT2edgesB e he3
        rw [hT4next]
        rw [hT2next] at this
        exact this
      · rcases List.mem_singleton.mp he4 with rfl
        rw [hT4next]
        constructor
        · exact Nat.lt_succ_of_lt ((hedgest _ (parent_mem_edges hp)).1.trans_le hge)
        · exact Nat.lt_succ_self _
    · rcases List.mem_singleton.mp he2 with rfl
      rw [hT4next]
      exact ⟨Nat.lt_succ_self _, Nat.lt_succ_of_lt (hh_lt.trans_le hge)⟩
  have hT4tnd : T4.targetsNodup := by
    rw [hT4]
    apply targetsNodup_addEdge
    · exact targetsNodup_addEdge T2 p T.nextId w hT2tnd ((hT2par _).trans hT1parIns)
    · exact hT3parh
  -- children of the inserted node
  have hT4chIns : T4.children T.nextId = [(h, w)] := by
    rw [hT4, children_addEdge, children_addEdge]
    rw [if_neg (by
      simp only [beq_iff_eq]
      intro he
      have := (hedgest _ (parent_mem_edges hp)).1.trans_le hge
      omega), if_pos (by simp)]
    rw [List.append_nil]
    have : T2.children T.nextId = [] := by
      show T1.children T.nextId = []
      exact children_none_of_ge T1 T.nextId hT1edgesB (Nat.le_of_eq hT1next)
    rw [this, List.nil_append]
  have hT4geth : T4.getNode h = t.getNode h := by
    rw [hT4get, hT2get_ne h (by
      intro he
      have := hh_lt.trans_le hge
      omega), hT1get, hgetTh]
  -- invariants for the recursive call
  have horigN4 : ∀ j, j < t.nextId → T4.getNode j = t.getNode j := by
    intro j hj
    rw [hT4get, hT2get_ne j (by omega), hT1get]
    exact horigN j hj
  have hpar4 : ∀ kh ∈ L', T4.parent kh.2 = t.parent kh.2 := by
    intro kh hkh
    have hlt := hhandle kh (List.mem_cons_of_mem _ hkh)
    rw [hT4par_ne kh.2 (fun he => hHne kh hkh he.symm) (by omega),
      hT1par_ne kh.2 (fun he => hHne kh hkh he.symm)]
    exact hpar kh (List.mem_cons_of_mem _ hkh)
  have hr'pf : PrevFacts t T4 lbl L' ⟨k, T.nextId, k, p, w⟩ := by
    refine ⟨hge, ?_, Nat.le_refl _, ?_, ?_, ?_, ?_, ?_⟩
    · rw [hT4next]
      exact Nat.lt_succ_self _
    · show T4.getNode T.nextId = _
      rw [hT4get, hT2get_self, hNTn]
      rfl
    · exact hT4parIns
    · show ((T4.children T.nextId).flatMap fun c => (T4.spanAt c.1).covered) = _
      rw [hT4chIns]
      show (T4.spanAt h).covered ++ [] = _
      rw [List.append_nil]
      unfold Tree.spanAt
      rw [hT4geth, htm]
      show (Node.span (Node.terminal tm)).covered = _
      rw [show Node.span (Node.terminal tm) = Span.continuous k (k + 1) by
        simp [Node.span, htmidx]]
      rw [covered_singleton]
      rw [show k + 1 - k = 1 by omega]
      rfl
    · intro c hc
      rw [hT4chIns] at hc
      rcases List.mem_singleton.mp hc with rfl
      exact hh_lt
    · intro kh hkh
      rw [hT4chIns]
      intro hmem
      rcases List.mem_map.mp hmem with ⟨c, hc, hcc⟩
      rcases List.mem_singleton.mp hc with rfl
      exact hHne kh hkh hcc
  have hprevrel' : PrevRel t T4 lbl L' (start + 1) (some (k, T.nextId)) :=
    ⟨by omega, ⟨k, T.nextId, k, p, w⟩, rfl, rfl, hr'pf⟩
  obtain ⟨A', B', C', D', F', G', E'⟩ := ihL' T4 (some (k, T.nextId)) (start + 1) R hok4
    ⟨hcons', hnd', fun kh hkh => horig kh (List.mem_cons_of_mem _ hkh),
      fun kh hkh => hhandle kh (List.mem_cons_of_mem _ hkh)⟩
    ⟨by rw [hT4next]; omega, hT4ids, hT4edgesB, hT4tnd, horigN4, hpar4⟩
    hprevrel'
  obtain ⟨e, hke, hnodeR, hparR⟩ := E' ⟨k, T.nextId, k, p, w⟩ rfl hr'pf
  have hRparh : R.parent h = some (T.nextId, w) := by
    rw [F' h (by rw [hT4next]; omega) (fun kh' hkh' => hHne kh' hkh'), hT4parh]
  have hRpnh : R.parentNode h = some T.nextId := by
    unfold Tree.parentNode
    rw [hRparh]
    rfl
  have hT4pnIns : T4.parentNode T.nextId = some p := by
    unfold Tree.parentNode
    rw [hT4parIns]
    rfl
  have htpn : t.parentNode h = some p := by
    unfold Tree.parentNode
    rw [hp]
    rfl
  have hkstart : k = start := hk
  refine ⟨?_, ?_, ?_, ?_, ?_, ?_, ?_⟩
  · intro kh hkh hacckh
    rcases List.mem_cons.mp hkh with he | hm
    · subst he
      rw [hacc_iff] at hacckh
      exact absurd hacckh hacc
    · exact A' kh hm hacckh
  · intro kh hkh hacckh
    rcases List.mem_cons.mp hkh with he | hm
    · subst he
      refine ⟨T.nextId, k, e, hge, Nat.le_refl _, hke, hnodeR, ?_⟩
      intro p' w' hp'
      rw [hp] at hp'
      injection hp' with hp'
      rcases Prod.mk.injEq .. |>.mp hp' with ⟨hp1, hp2⟩
      subst hp1
      subst hp2
      refine ⟨hRparh, ?_⟩
      unfold Tree.parentNode
      rw [hparR, hT4parIns]
      rfl
    · exact B' kh hm hacckh
  · intro k0 h0 h0' hk0 hk1 hf0 hf1
    rcases List.mem_cons.mp hk0 with he0 | hm0
    · -- head pair: h0 = h, positions k0 = k
      injection he0 with he0a he0b
      subst he0a
      subst he0b
      -- h0' is the head of L'
      have hk1' : (k0 + 1, h0') ∈ L' := by
        rcases List.mem_cons.mp hk1 with he1 | hm1
        · injection he1 with he1a _
          omega
        · exact hm1
      cases hLcase : L' with
      | nil =>
        rw [hLcase] at hk1'
        cases hk1'
      | cons hd tl =>
        have hhd : hd.1 = k0 + 1 := by
          rw [hLcase, List.map_cons, List.length_cons, List.range'_succ] at hcons'
          injection hcons' with h1 _
          omega
        have hndfst : (L'.map Prod.fst).Nodup := by
          rw [hcons']
          exact (List.pairwise_lt_range' _ _ 1).imp fun {a b} hab => Nat.ne_of_lt hab
        have heq : (k0 + 1, h0') = hd :=
          List.inj_on_of_nodup_map hndfst hk1'
            (by rw [hLcase]; exact List.mem_cons_self _ _) (by rw [hhd])
        obtain ⟨ins0, hins0parent, hmatch, _⟩ := D' (k0 + 1) h0' tl
          (by rw [hLcase, ← heq]) hf1
        obtain ⟨hSCtrue, hSCfalse⟩ := hmatch k0 T.nextId rfl
        constructor
        · intro hReq
          have hins0eq : ins0 = T.nextId := by
            rw [hRpnh, hins0parent] at hReq
            injection hReq with hReq
            omega
          by_cases hSC : (k0 = k0 + 1 - 1 ∧ T4.parentNode T.nextId = t.parentNode h0')
          · rcases hSC with ⟨_, hSC2⟩
            rw [hT4pnIns] at hSC2
            rw [htpn]
            exact hSC2
          · exfalso
            have := hSCfalse hSC
            rw [hT4next] at this
            omega
        · intro hteq
          have hSC : k0 = k0 + 1 - 1 ∧ T4.parentNode T.nextId = t.parentNode h0' := by
            refine ⟨by omega, ?_⟩
            rw [hT4pnIns, ← hteq, htpn]
          rw [hRpnh, hins0parent, hSCtrue hSC]
    · rcases List.mem_cons.mp hk1 with he1 | hm1
      · injection he1 with he1a _
        have hmem : k0 ∈ L'.map Prod.fst := List.mem_map.mpr ⟨(k0, h0), hm0, rfl⟩
        rw [hcons', List.mem_range'] at hmem
        rcases hmem with ⟨i, _, hi⟩
        omega
      · exact C' k0 h0 h0' hm0 hm1 hf0 hf1
  · intro k0 h0 L'' hL hf0
    injection hL with hL1 hL2
    injection hL1 with hk0 hh0
    subst hk0
    subst hh0
    refine ⟨T.nextId, hRpnh, ?_, ?_⟩
    · intro pp pi hprevsome
      refine ⟨?_, ?_⟩
      · intro hSC
        exact absurd hSC (hnoshare pp pi hprevsome)
      · intro _
        exact Nat.le_refl _
    · intro _
      exact Nat.le_refl _
  · intro x hx hne
    have hxh : x ≠ h := hne (k, h) (List.mem_cons_self _ _)
    rw [F' x (by rw [hT4next]; omega) (fun kh' hkh' => hne kh' (List.mem_cons_of_mem _ hkh')),
      hT4par_ne x hxh (by omega), hT1par_ne x hxh]
  · intro j hj hppi
    rw [G' j (by rw [hT4next]; omega) (fun pp pi hsome => by
        injection hsome with hsome
        have h2 : T.nextId = pi := congrArg Prod.snd hsome
        omega),
      hT4get, hT2get_ne j (by omega), hT1get]
  · intro r0 hr0 hpf0
    have hpi_lt := hpf0.lt
    have hpi_ge := hpf0.ge
    have hpih : r0.pi ≠ h := by
      have := hh_lt
      omega
    refine ⟨r0.pp, Nat.le_refl _, ?_, ?_⟩
    · rw [G' r0.pi (by rw [hT4next]; omega) (fun pp pi hsome => by
          injection hsome with hsome
          have h2 : T.nextId = pi := congrArg Prod.snd hsome
          omega),
        hT4get, hT2get_ne r0.pi (by omega), hT1get]
      exact hpf0.node
    · rw [F' r0.pi (by rw [hT4next]; omega) (fun kh' hkh' => by
          have := hhandle kh' (List.mem_cons_of_mem _ hkh')
          omega),
        hT4par_ne r0.pi hpih (by omega), hT1par_ne r0.pi hpih]

theorem insertGo_shared_step {t : Tree} (tagSet : LabelSet) (lbl : String)
    (hedgest : t.edgesBounded)
    {k h start : Nat} {L' : List (Nat × Nat)} {T T1 : Tree}
    {R : Tree} (ihL' : InsertIH t tagSet lbl L')
    {p : Nat} {w : Edge} (hp : t.parent h = some (p, w))
    (hacc : ¬ tagSet.matches (t.labelAt p) = true)
    (hLf : InsertLFacts t ((k, h) :: L') start)
    (hH : InsertHyps t T ((k, h) :: L'))
    {r : RunInfo} (hrpf : PrevFacts t T lbl ((k, h) :: L') r)
    (hprevle : r.pp + 1 ≤ start)
    (hT1 : T1 = { T with edges := T.edges.eraseP fun e => e.2.1 == h })
    (hok2 : insertIntermediateGo tagSet lbl ((T1.addEdge r.pi h w).extendSpan r.pi)
      (some (k, r.pi)) L' = .ok R)
    (hshare1 : r.pp = k - 1) (hshare2 : T.parentNode r.pi = t.parentNode h) :
    InsertGoal t tagSet lbl ((k, h) :: L') T (some (r.pp, r.pi)) R := by
  obtain ⟨hcons, hnd, horig, hhandle⟩ := hLf
  obtain ⟨hge, hids, hedges, htnd, horigN, hpar⟩ := hH
  rw [List.map_cons, List.length_cons, List.range'_succ] at hcons
  injection hcons with hk hcons'
  rw [List.map_cons] at hnd
  rcases List.nodup_cons.mp hnd with ⟨hh_notin, hnd'⟩
  rcases horig (k, h) (List.mem_cons_self _ _) with ⟨tm, htm, htmidx⟩
  have hh_lt : h < t.nextId := hhandle (k, h) (List.mem_cons_self _ _)
  have hparent_head : T.parent h = t.parent h := hpar (k, h) (List.mem_cons_self _ _)
  have hpT : T.parent h = some (p, w) := hparent_head.trans hp
  have hHne : ∀ kh' ∈ L', h ≠ kh'.2 := fun kh' hkh' heq =>
    hh_notin (List.mem_map.mpr ⟨kh', hkh', heq.symm⟩)
  have hacc_iff : origAccepted t tagSet h = tagSet.matches (t.labelAt p) := by
    unfold origAccepted
    rw [hp]
  have hkstart : k = start := hk
  have hpi_lt := hrpf.lt
  have hpi_ge := hrpf.ge
  have ha_le := hrpf.a_le
  have hk1 : k = r.pp + 1 := by omega
  have hpih : r.pi ≠ h := by
    have := hh_lt
    omega
  have hpn : p < t.nextId := (hedgest _ (parent_mem_edges hp)).1
  -- T1 facts
  have hT1eq : T1 = (T.removeParentEdge h).2 := by
    rw [removeParentEdge_eq T h p w hpT, hT1]
  have hT1nodes : T1.nodes = T.nodes := by rw [hT1]
  have hT1next : T1.nextId = T.nextId := by rw [hT1]
  have hT1get : ∀ j, T1.getNode j = T.getNode j := by
    intro j
    rw [hT1eq, (removeParentEdge_misc T h).2.2]
  have hT1parh : T1.parent h = none := by
    rw [hT1eq]
    exact parent_removeParentEdge_self T h htnd
  have hT1par_ne : ∀ j, j ≠ h → T1.parent j = T.parent j := fun j hj => by
    rw [hT1eq]
    exact parent_removeParentEdge_ne T h j hj
  have hT1tnd : T1.targetsNodup := by
    rw [hT1eq]
    exact targetsNodup_removeParentEdge T h htnd
  have hT1edgesB : T1.edgesBounded := by
    intro e he
    rw [hT1] at he
    have := hedges e ((List.eraseP_sublist _).subset he)
    rw [hT1next]
    exact this
  have hT1ids : T1.idsBounded := by
    intro q hq
    rw [hT1nodes] at hq
    rw [hT1next]
    exact hids q hq
  have hgetTh : T.getNode h = t.getNode h := horigN h hh_lt
  have hT1chpi : T1.children r.pi = T.children r.pi := by
    rw [hT1eq]
    apply children_removeParentEdge
    intro e he he2
    obtain ⟨e1, e2, e3⟩ := e
    simp only at he2 ⊢
    subst he2
    have hpar_e := parent_eq_of_mem_edges htnd he
    rw [hpT] at hpar_e
    injection hpar_e with hpar_e
    have he1 : p = e1 := congrArg Prod.fst hpar_e
    omega
  -- T2' = T1 plus the edge from the run node to the terminal
  set T2' : Tree := T1.addEdge r.pi h w with hT2'
  have hT2'get : ∀ j, T2'.getNode j = T.getNode j := fun j => hT1get j
  have hT2'next : T2'.nextId = T.nextId := hT1next
  have hT2'ids : T2'.idsBounded := hT1ids
  have hT2'parh : T2'.parent h = some (r.pi, w) :=
    parent_addEdge_self T1 r.pi h w hT1parh
  have hT2'par_ne : ∀ j, j ≠ h → T2'.parent j = T.parent j := fun j hj => by
    rw [hT2', parent_addEdge_ne T1 r.pi h w j hj]
    exact hT1par_ne j hj
  have hT2'tnd : T2'.targetsNodup := targetsNodup_addEdge T1 r.pi h w hT1tnd hT1parh
  have hT2'edgesB : T2'.edgesBounded := by
    intro e he
    rcases List.mem_append.mp he with he1 | he2
    · have := hT1edgesB e he1
      rw [hT2'next]
      rw [hT1next] at this
      exact this
    · rcases List.mem_singleton.mp he2 with rfl
      rw [hT2'next]
      exact ⟨hpi_lt, hh_lt.trans_le hge⟩
  have hT2'chpi : T2'.children r.pi = T.children r.pi ++ [(h, w)] := by
    rw [hT2', children_addEdge, if_pos (by simp), hT1chpi]
  have hspan_eq : ∀ j, T2'.spanAt j = T.spanAt j := by
    intro j
    unfold Tree.spanAt
    rw [hT2'get]
  have hspanTh : T.spanAt h = Span.continuous k (k + 1) := by
    unfold Tree.spanAt
    rw [hgetTh, htm]
    simp [Node.span, htmidx]
  have hcov2 : ((T2'.children r.pi).flatMap fun c => (T2'.spanAt c.1).covered)
      = List.range' r.a (r.pp + 1 - r.a + 1) := by
    rw [hT2'chpi, List.flatMap_append]
    have hcg : ((T.children r.pi).flatMap fun c => (T2'.spanAt c.1).covered)
        = ((T.children r.pi).flatMap fun c => (T.spanAt c.1).covered) :=
      flatMap_congr fun c hc => by
        show (T2'.spanAt c.1).covered = (T.spanAt c.1).covered
        rw [hspan_eq]
    rw [hcg, hrpf.cov]
    have hsingle : ([((h : Nat), w)].flatMap fun c => (T2'.spanAt c.1).covered) = [k] := by
      simp only [List.flatMap_cons, List.flatMap_nil, List.append_nil]
      show (T2'.spanAt h).covered = [k]
      rw [hspan_eq, hspanTh, covered_singleton]
    rw [hsingle, show k = r.a + (r.pp + 1 - r.a) from by omega]
    exact (List.range'_1_concat _ _).symm
  have hT2'node : T2'.getNode r.pi
      = some (.nonTerminal ⟨lbl, none, .continuous r.a (r.pp + 1)⟩) := by
    rw [hT2'get]
    exact hrpf.node
  have hext := extendSpan_eq T2' r.pi ⟨lbl, none, .continuous r.a (r.pp + 1)⟩
    r.a (r.pp + 1 - r.a) hT2'node hcov2
  rw [show r.a + (r.pp + 1 - r.a + 1) = k + 1 from by omega] at hext
  set TE : Tree := T2'.extendSpan r.pi with hTE
  -- facts about the extended tree
  have hTEedges : TE.edges = T2'.edges := (extendSpan_edges_misc T2' r.pi).1
  have hTEnext : TE.nextId = T.nextId :=
    (extendSpan_edges_misc T2' r.pi).2.1.trans hT2'next
  have hTEget_ne : ∀ j, j ≠ r.pi → TE.getNode j = T.getNode j := fun j hj => by
    rw [hTE, getNode_extendSpan_ne T2' r.pi j hj, hT2'get]
  have hTEgetpi : TE.getNode r.pi
      = some (.nonTerminal ⟨lbl, none, .continuous r.a (k + 1)⟩) := by
    rw [hext, getNode_setNode_self, hT2'node]
    rfl
  have hTEpar : ∀ j, TE.parent j = T2'.parent j := fun j => by
    unfold Tree.parent
    rw [hTEedges]
  have hTEch : ∀ j, TE.children j = T2'.children j := fun j => by
    unfold Tree.children
    rw [hTEedges]
  have hTEparh : TE.parent h = some (r.pi, w) := (hTEpar h).trans hT2'parh
  have hTEpar_ne : ∀ j, j ≠ h → TE.parent j = T.parent j := fun j hj =>
    (hTEpar j).trans (hT2'par_ne j hj)
  have hTEparpi : TE.parent r.pi = T.parent r.pi := hTEpar_ne r.pi hpih
  have hTEtnd : TE.targetsNodup := by
    unfold Tree.targetsNodup
    rw [hTEedges]
    exact hT2'tnd
  have hTEedgesB : TE.edgesBounded := by
    intro e he
    rw [hTEedges] at he
    have := hT2'edgesB e he
    rw [hTEnext]
    rw [hT2'next] at this
    exact this
  have hTEids : TE.idsBounded := by
    intro q hq
    have hkeys : q.1 ∈ TE.nodes.map Prod.fst := List.mem_map.mpr ⟨q, hq, rfl⟩
    rw [hTE, nodes_keys_extendSpan] at hkeys
    rcases List.mem_map.mp hkeys with ⟨q0, hq0, hq0e⟩
    have h0 : q0.1 < T2'.nextId := hT2'ids q0 hq0
    rw [hq0e, hT2'next] at h0
    rw [hTEnext]
    exact h0
  -- invariants for the recursive call
  have horigNE : ∀ j, j < t.nextId → TE.getNode j = t.getNode j := by
    intro j hj
    rw [hTEget_ne j (by omega)]
    exact horigN j hj
  have hparE : ∀ kh ∈ L', TE.parent kh.2 = t.parent kh.2 := by
    intro kh hkh
    rw [hTEpar_ne kh.2 (fun he => hHne kh hkh he.symm)]
    exact hpar kh (List.mem_cons_of_mem _ hkh)
  have hr'pf : PrevFacts t TE lbl L' ⟨k, r.pi, r.a, r.prevPar, r.wpar⟩ := by
    refine ⟨hpi_ge, ?_, show r.a ≤ k by omega, hTEgetpi,
      (hTEparpi).trans hrpf.par, ?_, ?_, ?_⟩
    · rw [hTEnext]
      exact hpi_lt
    · show ((TE.children r.pi).flatMap fun c => (TE.spanAt c.1).covered) = _
      have hcong : ((TE.children r.pi).flatMap fun c => (TE.spanAt c.1).covered)
          = ((T2'.children r.pi).flatMap fun c => (T2'.spanAt c.1).covered) := by
        rw [hTEch]
        apply flatMap_congr
        intro c hc
        have hclt : c.1 < t.nextId := by
          rw [hT2'chpi] at hc
          rcases List.mem_append.mp hc with hc1 | hc2
          · exact hrpf.childLt c hc1
          · rcases List.mem_singleton.mp hc2 with rfl
            exact hh_lt
        show (TE.spanAt c.1).covered = (T2'.spanAt c.1).covered
        unfold Tree.spanAt
        rw [hTEget_ne c.1 (by omega), hT2'get]
      rw [hcong, hcov2, show r.pp + 1 - r.a + 1 = k + 1 - r.a from by omega]
    · intro c hc
      rw [hTEch, hT2'chpi] at hc
      rcases List.mem_append.mp hc with hc1 | hc2
      · exact hrpf.childLt c hc1
      · rcases List.mem_singleton.mp hc2 with rfl
        exact hh_lt
    · intro kh hkh
      rw [hTEch, hT2'chpi, List.map_append]
      intro hmem
      rcases List.mem_append.mp hmem with hm1 | hm2
      · exact hrpf.freshChild kh (List.mem_cons_of_mem _ hkh) hm1
      · rcases List.mem_singleton.mp hm2 with hm2
        exact hHne kh hkh hm2.symm
  obtain ⟨A', B', C', D', F', G', E'⟩ := ihL' TE (some (k, r.pi)) (start + 1) R hok2
    ⟨hcons', hnd', fun kh hkh => horig kh (List.mem_cons_of_mem _ hkh),
      fun kh hkh => hhandle kh (List.mem_cons_of_mem _ hkh)⟩
    ⟨by rw [hTEnext]; exact hge, hTEids, hTEedgesB, hTEtnd, horigNE, hparE⟩
    ⟨by omega, ⟨k, r.pi, r.a, r.prevPar, r.wpar⟩, rfl, rfl, hr'pf⟩
  obtain ⟨e, hke, hnodeR, hparR⟩ := E' ⟨k, r.pi, r.a, r.prevPar, r.wpar⟩ rfl hr'pf
  have hke' : k ≤ e := hke
  have hRparh : R.parent h = some (r.pi, w) := by
    rw [F' h (by rw [hTEnext]; omega) (fun kh' hkh' => hHne kh' hkh'), hTEparh]
  have hRpnh : R.parentNode h = some r.pi := by
    unfold Tree.parentNode
    rw [hRparh]
    rfl
  have hTpnpi : T.parentNode r.pi = some r.prevPar := by
    unfold Tree.parentNode
    rw [hrpf.par]
    rfl
  have htpn : t.parentNode h = some p := by
    unfold Tree.parentNode
    rw [hp]
    rfl
  have hprevpar_p : r.prevPar = p := by
    rw [hshare2, htpn] at hTpnpi
    injection hTpnpi with h1
    exact h1.symm
  have hTEpnpi : TE.parentNode r.pi = some p := by
    unfold Tree.parentNode
    rw [hTEparpi, hrpf.par, hprevpar_p]
    rfl
  refine ⟨?_, ?_, ?_, ?_, ?_, ?_, ?_⟩
  · intro kh hkh hacckh
    rcases List.mem_cons.mp hkh with he | hm
    · subst he
      rw [hacc_iff] at hacckh
      exact absurd hacckh hacc
    · exact A' kh hm hacckh
  · intro kh hkh hacckh
    rcases List.mem_cons.mp hkh with he | hm
    · subst he
      refine ⟨r.pi, r.a, e, hpi_ge, show r.a ≤ k from by omega, hke', hnodeR, ?_⟩
      intro p' w' hp'
      rw [hp] at hp'
      injection hp' with hp'
      have hp1 : p = p' := congrArg Prod.fst hp'
      have hp2 : w = w' := congrArg Prod.snd hp'
      subst hp1
      subst hp2
      refine ⟨hRparh, ?_⟩
      unfold Tree.parentNode
      rw [hparR, hTEparpi, hrpf.par, hprevpar_p]
      rfl
    · exact B' kh hm hacckh
  · intro k0 h0 h0' hk0 hk1' hf0 hf1
    rcases List.mem_cons.mp hk0 with he0 | hm0
    · injection he0 with he0a he0b
      subst he0a
      subst he0b
      have hk1'' : (k0 + 1, h0') ∈ L' := by
        rcases List.mem_cons.mp hk1' with he1 | hm1
        · injection he1 with he1a _
          omega
        · exact hm1
      cases hLcase : L' with
      | nil =>
        rw [hLcase] at hk1''
        cases hk1''
      | cons hd tl =>
        have hhd : hd.1 = k0 + 1 := by
          rw [hLcase, List.map_cons, List.length_cons, List.range'_succ] at hcons'
          injection hcons' with h1 _
          omega
        have hndfst : (L'.map Prod.fst).Nodup := by
          rw [hcons']
          exact (List.pairwise_lt_range' _ _ 1).imp fun {a b} hab => Nat.ne_of_lt hab
        have heq : (k0 + 1, h0') = hd :=
          List.inj_on_of_nodup_map hndfst hk1''
            (by rw [hLcase]; exact List.mem_cons_self _ _) (by rw [hhd])
        obtain ⟨ins0, hins0parent, hmatch, _⟩ := D' (k0 + 1) h0' tl
          (by rw [hLcase, ← heq]) hf1
        obtain ⟨hSCtrue, hSCfalse⟩ := hmatch k0 r.pi rfl
        constructor
        · intro hReq
          have hins0eq : ins0 = r.pi := by
            rw [hRpnh, hins0parent] at hReq
            injection hReq with hReq
            omega
          by_cases hSC : (k0 = k0 + 1 - 1 ∧ TE.parentNode r.pi = t.parentNode h0')
          · rcases hSC with ⟨_, hSC2⟩
            rw [hTEpnpi] at hSC2
            rw [htpn]
            exact hSC2
          · exfalso
            have := hSCfalse hSC
            rw [hTEnext] at this
            omega
        · intro hteq
          have hSC : k0 = k0 + 1 - 1 ∧ TE.parentNode r.pi = t.parentNode h0' := by
            refine ⟨by omega, ?_⟩
            rw [hTEpnpi, ← hteq, htpn]
          rw [hRpnh, hins0parent, hSCtrue hSC]
    · rcases List.mem_cons.mp hk1' with he1 | hm1
      · injection he1 with he1a _
        have hmem : k0 ∈ L'.map Prod.fst := List.mem_map.mpr ⟨(k0, h0), hm0, rfl⟩
        rw [hcons', List.mem_range'] at hmem
        rcases hmem with ⟨i, _, hi⟩
        omega
      · exact C' k0 h0 h0' hm0 hm1 hf0 hf1
  · intro k0 h0 L'' hL hf0
    injection hL with hL1 hL2
    injection hL1 with hk0 hh0
    subst hk0
    subst hh0
    refine ⟨r.pi, hRpnh, ?_, ?_⟩
    · intro pp pi hprevsome
      injection hprevsome with hprevsome
      have hpp : r.pp = pp := congrArg Prod.fst hprevsome
      have hpi : r.pi = pi := congrArg Prod.snd hprevsome
      subst hpp
      subst hpi
      exact ⟨fun _ => rfl, fun hnsc => absurd ⟨hshare1, hshare2⟩ hnsc⟩
    · intro hcon
      exact Option.noConfusion hcon
  · intro x hx hne
    have hxh : x ≠ h := hne (k, h) (List.mem_cons_self _ _)
    rw [F' x (by rw [hTEnext]; omega) (fun kh' hkh' => hne kh' (List.mem_cons_of_mem _ hkh')),
      hTEpar_ne x hxh]
  · intro j hj hppi
    have hjpi : j ≠ r.pi := hppi r.pp r.pi rfl
    rw [G' j (by rw [hTEnext]; omega) (fun pp pi hsome => by
        injection hsome with hsome
        have h2 : r.pi = pi := congrArg Prod.snd hsome
        omega),
      hTEget_ne j hjpi]
  · intro r0 hr0 hpf0
    injection hr0 with hr0
    have hr0pp : r.pp = r0.pp := congrArg Prod.fst hr0
    have hr0pi : r.pi = r0.pi := congrArg Prod.snd hr0
    have hnode0 := hpf0.node
    rw [← hr0pi, hrpf.node] at hnode0
    injection hnode0 with hnode0
    have haa : r.a = r0.a := congrArg (fun nd => (Node.span nd).lower) hnode0
    refine ⟨e, by omega, ?_, ?_⟩
    · rw [← hr0pi, ← haa]
      exact hnodeR
    · rw [← hr0pi, hparR, hTEparpi]

theorem insertGo_spec (t : Tree) (tagSet : LabelSet) (lbl : String)
    (hidst : t.idsBounded) (hedgest : t.edgesBounded) :
    ∀ (L : List (Nat × Nat)) (T : Tree) (prev : Option (Nat × Nat)) (start : Nat) (R : Tree),
    insertIntermediateGo tagSet lbl T prev L = .ok R →
    InsertLFacts t L start → InsertHyps t T L → PrevRel t T lbl L start prev →
    InsertGoal t tagSet lbl L T prev R := by
  intro L
  induction L with
  | nil =>
    intro T prev start R hok hLf hH hprev
    simp only [insertIntermediateGo] at hok
    injection hok with hok
    subst hok
    refine ⟨?_, ?_, ?_, ?_, ?_, ?_, ?_⟩
    · intro kh hkh
      cases hkh
    · intro kh hkh
      cases hkh
    · intro k h h' hk
      cases hk
    · intro k0 h0 L'' hL
      cases hL
    · intro x _ _
      rfl
    · intro j _ _
      rfl
    · intro r hr hf
      exact ⟨r.pp, Nat.le_refl _, hf.node, rfl⟩
  | cons kh L' ih =>
    intro T prev start R hok hLf hH hprev
    rcases kh with ⟨k, h⟩
    have hcons := hLf.1
    have hnd := hLf.2.1
    have horig := hLf.2.2.1
    have hhandle := hLf.2.2.2
    have hge := hH.1
    rw [List.map_cons, List.length_cons, List.range'_succ] at hcons
    injection hcons with hk hcons'
    rw [List.map_cons] at hnd
    rcases List.nodup_cons.mp hnd with ⟨hh_notin, hnd'⟩
    have hh_lt : h < t.nextId := hhandle (k, h) (List.mem_cons_self _ _)
    have hparent_head : T.parent h = t.parent h :=
      hH.2.2.2.2.2 (k, h) (List.mem_cons_self _ _)
    simp only [insertIntermediateGo] at hok
    cases hp : t.parent h with
    | none =>
      rw [hparent_head, hp] at hok
      exact Except.noConfusion hok
    | some pw =>
      rcases pw with ⟨p, w⟩
      have hplt : p < t.nextId := (hedgest _ (parent_mem_edges hp)).1
      rw [hparent_head, hp] at hok
      simp only at hok
      have hlabel : T.labelAt p = t.labelAt p := by
        unfold Tree.labelAt
        rw [hH.2.2.2.2.1 p hplt]
      rw [hlabel] at hok
      have hacc_iff : origAccepted t tagSet h = tagSet.matches (t.labelAt p) := by
        unfold origAccepted
        rw [hp]
      by_cases hacc : tagSet.matches (t.labelAt p) = true
      · -- the terminal's parent label is accepted: nothing inserted for it
        rw [if_pos hacc] at hok
        have hprev' : PrevRel t T lbl L' (start + 1) prev := by
          cases prev with
          | none => trivial
          | some pq =>
            rcases pq with ⟨pp, pi⟩
            obtain ⟨r, hrpp, hrpi, hf⟩ := hprev.2
            exact ⟨Nat.le_succ_of_le hprev.1, r, hrpp, hrpi,
              { hf with freshChild := fun kh hkh =>
                  hf.freshChild kh (List.mem_cons_of_mem _ hkh) }⟩
        obtain ⟨A', B', C', D', F', G', E'⟩ := ih T prev (start + 1) R hok
          ⟨hcons', hnd', fun kh hkh => horig kh (List.mem_cons_of_mem _ hkh),
            fun kh hkh => hhandle kh (List.mem_cons_of_mem _ hkh)⟩
          ⟨hge, hH.2.1, hH.2.2.1, hH.2.2.2.1, hH.2.2.2.2.1,
            fun kh hkh => hH.2.2.2.2.2 kh (List.mem_cons_of_mem _ hkh)⟩
          hprev'
        have hHne : ∀ kh' ∈ L', h ≠ kh'.2 := fun kh' hkh' heq =>
          hh_notin (List.mem_map.mpr ⟨kh', hkh', heq.symm⟩)
        refine ⟨?_, ?_, ?_, ?_, ?_, ?_, ?_⟩
        · intro kh hkh hacckh
          rcases List.mem_cons.mp hkh with he | hm
          · subst he
            rw [F' h (lt_of_lt_of_le hh_lt hge) hHne]
            exact hparent_head
          · exact A' kh hm hacckh
        · intro kh hkh hacckh
          rcases List.mem_cons.mp hkh with he | hm
          · subst he
            rw [hacc_iff] at hacckh
            rw [hacckh] at hacc
            exact Bool.noConfusion hacc
          · exact B' kh hm hacckh
        · intro k0 h0 h0' hk0 hk1 hf0 hf1
          rcases List.mem_cons.mp hk0 with he0 | hm0
          · injection he0 with he0a he0b
            subst he0b
            rw [hacc_iff] at hf0
            rw [hf0] at hacc
            exact Bool.noConfusion hacc
          · rcases List.mem_cons.mp hk1 with he1 | hm1
            · injection he1 with he1a he1b
              have hmem : k0 ∈ L'.map Prod.fst := List.mem_map.mpr ⟨(k0, h0), hm0, rfl⟩
              rw [hcons', List.mem_range'] at hmem
              rcases hmem with ⟨i, _, hi⟩
              have hkstart : k = start := hk
              omega
            · exact C' k0 h0 h0' hm0 hm1 hf0 hf1
        · intro k0 h0 L'' hL hf0
          injection hL with hL1 hL2
          injection hL1 with hk0 hh0
          subst hh0
          rw [hacc_iff] at hf0
          rw [hf0] at hacc
          exact Bool.noConfusion hacc
        · intro x hx hne
          exact F' x hx fun kh' hkh' => hne kh' (List.mem_cons_of_mem _ hkh')
        · exact G'
        · intro r hr hf
          exact E' r hr
            { hf with freshChild := fun kh' hk' =>
                hf.freshChild kh' (List.mem_cons_of_mem _ hk') }
      · -- the parent label is not accepted: an insertion step happens
        rw [if_neg hacc] at hok
        have hpT : T.parent h = some (p, w) := hparent_head.trans hp
        set T1 : Tree := { T with edges := T.edges.eraseP fun e => e.2.1 == h } with hT1d
        have hre : T.removeParentEdge h = (w, T1) := by
          rw [hT1d]
          exact removeParentEdge_eq T h p w hpT
        rw [hre] at hok
        cases prev with
        | none =>
          have hok4 : insertIntermediateGo tagSet lbl
              (((T1.addNode (Node.nonTerminal (NonTerminal.mk' lbl (T1.spanAt h)))).1.addEdge p
                  (T1.addNode (Node.nonTerminal (NonTerminal.mk' lbl (T1.spanAt h)))).2 w).addEdge
                (T1.addNode (Node.nonTerminal (NonTerminal.mk' lbl (T1.spanAt h)))).2 h w)
              (some (k, (T1.addNode (Node.nonTerminal (NonTerminal.mk' lbl (T1.spanAt h)))).2)) L'
              = .ok R := hok
          exact insertGo_fresh_step tagSet lbl hidst hedgest ih hp hacc hLf hH hprev hT1d hok4
            (fun pp pi hc => Option.noConfusion hc)
        | some pq =>
          rcases pq with ⟨pp, pi⟩
          simp only at hok
          have hpplt : pp + 1 ≤ start := hprev.1
          obtain ⟨r, hrpp, hrpi, hf⟩ := hprev.2
          have hpi_ge : t.nextId ≤ pi := hrpi ▸ hf.ge
          have hpine : pi ≠ h := by
            have := hh_lt
            omega
          have hT1eq2 : T1 = (T.removeParentEdge h).2 := by
            rw [hre]
          have hT1par_pi : T1.parent pi = T.parent pi := by
            rw [hT1eq2]
            exact parent_removeParentEdge_ne T h pi hpine
          have hT1pn_pi : T1.parentNode pi = T.parentNode pi := by
            unfold Tree.parentNode
            rw [hT1par_pi]
          have htpn : t.parentNode h = some p := by
            unfold Tree.parentNode
            rw [hp]
            rfl
          by_cases hcond : (pp == k - 1 && T1.parentNode pi == some p) = true
          · rw [if_pos hcond] at hok
            rcases Bool.and_eq_true _ _ |>.mp hcond with ⟨hc1, hc2⟩
            have hc1' : pp = k - 1 := eq_of_beq hc1
            have hc2' : T1.parentNode pi = some p := eq_of_beq hc2
            have hshare2 : T.parentNode pi = t.parentNode h := by
              rw [← hT1pn_pi, hc2', htpn]
            subst hrpp
            subst hrpi
            have hok2 : insertIntermediateGo tagSet lbl
                ((T1.addEdge r.pi h w).extendSpan r.pi) (some (k, r.pi)) L' = .ok R := hok
            exact insertGo_shared_step tagSet lbl hedgest ih hp hacc hLf hH hf hpplt hT1d
              hok2 hc1' hshare2
          · rw [if_neg hcond] at hok
            have hok4 : insertIntermediateGo tagSet lbl
                (((T1.addNode (Node.nonTerminal (NonTerminal.mk' lbl (T1.spanAt h)))).1.addEdge p
                    (T1.addNode (Node.nonTerminal (NonTerminal.mk' lbl (T1.spanAt h)))).2 w).addEdge
                  (T1.addNode (Node.nonTerminal (NonTerminal.mk' lbl (T1.spanAt h)))).2 h w)
                (some (k, (T1.addNode (Node.nonTerminal (NonTerminal.mk' lbl (T1.spanAt h)))).2)) L'
                = .ok R := hok
            refine insertGo_fresh_step tagSet lbl hidst hedgest ih hp hacc hLf hH hprev hT1d
              hok4 ?_
            intro pp' pi' hc hSC
            injection hc with hc
            have hpp' : pp = pp' := congrArg Prod.fst hc
            have hpi' : pi = pi' := congrArg Prod.snd hc
            subst hpp'
            subst hpi'
            apply hcond
            rw [Bool.and_eq_true]
            refine ⟨beq_iff_eq.mpr hSC.1, beq_iff_eq.mpr ?_⟩
            rw [hT1pn_pi, hSC.2, htpn]

/-- Well-formedness of reader-produced trees: the k-th terminal handle in
terminal order resolves to a terminal node whose `idx` field is `k` (the
readers assign `idx` from the token position, so position order and `idx`
agree). -/
def Tree.posAligned (t : Tree) : Bool :=
  t.terminals.enum.all fun kh =>
    match t.getNode kh.2 with
    | some (.terminal tm) => tm.idx == kh.1
    | _ => false

/-- C5: `insert_intermediate` processes the terminals in ascending
position; a terminal whose immediate parent label is accepted keeps its
parent edge; a terminal whose parent label is not accepted ends up under a
node labelled `lbl` that is freshly created in this call (its index is at
least the original `nextId`) with a continuous span covering the
terminal's position, the old edge weight on both new edges, and the
inserted node attached to the original parent; and two consecutive
non-accepted terminals (positions `k` and `k + 1`) share their inserted
node exactly when they had the same original parent. -/
theorem c5_insert_intermediate (t : Tree) (tagSet : LabelSet) (lbl : String) (R : Tree)
    (hw : t.wellKeyed) (hids : t.idsBounded) (hedges : t.edgesBounded)
    (htnd : t.targetsNodup) (hpos : t.posAligned = true)
    (hok : t.insert_intermediate tagSet lbl = .ok R) :
    (∀ kh ∈ t.terminals.enum, origAccepted t tagSet kh.2 = true →
        R.parent kh.2 = t.parent kh.2)
    ∧ (∀ kh ∈ t.terminals.enum, origAccepted t tagSet kh.2 = false →
        ∃ ins a e, t.nextId ≤ ins ∧ a ≤ kh.1 ∧ kh.1 ≤ e ∧
          R.getNode ins = some (.nonTerminal ⟨lbl, none, .continuous a (e + 1)⟩) ∧
          (∀ p w, t.parent kh.2 = some (p, w) →
            R.parent kh.2 = some (ins, w) ∧ R.parentNode ins = some p))
    ∧ (∀ k h h', (k, h) ∈ t.terminals.enum → (k + 1, h') ∈ t.terminals.enum →
        origAccepted t tagSet h = false → origAccepted t tagSet h' = false →
        (R.parentNode h = R.parentNode h' ↔ t.parentNode h = t.parentNode h')) := by
  have hmemterm : ∀ kh ∈ t.terminals.enum, kh.2 ∈ t.terminals := by
    intro kh hkh
    have hm : kh.2 ∈ t.terminals.enum.map Prod.snd := List.mem_map.mpr ⟨kh, hkh, rfl⟩
    rwa [List.enum_map_snd] at hm
  have hhandle : ∀ kh ∈ t.terminals.enum, kh.2 < t.nextId := by
    intro kh hkh
    rcases mem_terminals (hmemterm kh hkh) with ⟨tm, hmem⟩
    exact hids _ hmem
  have horig : ∀ kh ∈ t.terminals.enum,
      ∃ tm, t.getNode kh.2 = some (.terminal tm) ∧ tm.idx = kh.1 := by
    intro kh hkh
    unfold Tree.posAligned at hpos
    have hb := List.all_eq_true.mp hpos kh hkh
    cases hg : t.getNode kh.2 with
    | none =>
      rw [hg] at hb
      exact Bool.noConfusion hb
    | some nd =>
      cases nd with
      | nonTerminal nt =>
        rw [hg] at hb
        exact Bool.noConfusion hb
      | terminal tm =>
        rw [hg] at hb
        exact ⟨tm, rfl, eq_of_beq hb⟩
  obtain ⟨A, B, C, _, _, _, _⟩ := insertGo_spec t tagSet lbl hids hedges
    t.terminals.enum t none 0 R hok
    ⟨by rw [List.enum_map_fst, List.range_eq_range', List.enum_length],
      by rw [List.enum_map_snd]; exact nodup_terminals hw,
      horig, hhandle⟩
    ⟨Nat.le_refl _, hids, hedges, htnd, fun j _ => rfl, fun _ _ => rfl⟩
    trivial
  exact ⟨A, B, C⟩

/-- The spec's `insert_intermediate` example shape: a root with an
accepted `L` phrase over terminal 0 and a non-accepted `X` phrase over
terminals 1 and 2. -/
def c5Tree : Tree :=
  { nodes := [(0, .nonTerminal ( NonTerminal.mk' "ROOT" (.continuous 0 3))),
              (1, .nonTerminal ( NonTerminal.mk' "L" (.continuous 0 1))),
              (2, .nonTerminal ( NonTerminal.mk' "X" (.continuous 1 3))),
              (3, .terminal ( Terminal.mk' "a" "TA" 0)),
              (4, .terminal ( Terminal.mk' "b" "TB" 1)),
              (5, .terminal ( Terminal.mk' "c" "TC" 2))],
    edges := [(0, 1, Edge.default), (0, 2, Edge.default), (1, 3, Edge.default),
              (2, 4, Edge.default), (2, 5, Edge.default)],
    nextId := 6, root := 0, nTerminals := 3, projectivity := true }

/-- Result of running `insert_intermediate (positive ["L"]) "UNK"` on
`c5Tree`: terminal 4 and terminal 5 share the inserted `UNK` node 6. -/
def c5Result : Tree :=
  { nodes := [(0, .nonTerminal ⟨"ROOT", none, .continuous 0 3⟩),
              (1, .nonTerminal ⟨"L", none, .continuous 0 1⟩),
              (2, .nonTerminal ⟨"X", none, .continuous 1 3⟩),
              (3, .terminal ⟨"a", "TA", none, none, 0⟩),
              (4, .terminal ⟨"b", "TB", none, none, 1⟩),
              (5, .terminal ⟨"c", "TC", none, none, 2⟩),
              (6, .nonTerminal ⟨"UNK", none, .continuous 1 3⟩)],
    edges := [(0, 1, ⟨none⟩), (0, 2, ⟨none⟩), (1, 3, ⟨none⟩),
              (2, 6, ⟨none⟩), (6, 4, ⟨none⟩), (6, 5, ⟨none⟩)],
    nextId := 7, root := 0, nTerminals := 3, projectivity := true }

/-- C5 witness: the theorem applied to the concrete example tree. -/
theorem c5_insert_intermediate_witness :
    (c5Tree.wellKeyed ∧ c5Tree.idsBounded ∧ c5Tree.edgesBounded ∧ c5Tree.targetsNodup ∧
      c5Tree.posAligned = true ∧
      c5Tree.insert_intermediate (LabelSet.positive ["L"]) "UNK" = .ok c5Result) ∧
    ((∀ kh ∈ c5Tree.terminals.enum, origAccepted c5Tree (LabelSet.positive ["L"]) kh.2 = true →
        c5Result.parent kh.2 = c5Tree.parent kh.2)
    ∧ (∀ kh ∈ c5Tree.terminals.enum, origAccepted c5Tree (LabelSet.positive ["L"]) kh.2 = false →
        ∃ ins a e, c5Tree.nextId ≤ ins ∧ a ≤ kh.1 ∧ kh.1 ≤ e ∧
          c5Result.getNode ins = some (.nonTerminal ⟨"UNK", none, .continuous a (e + 1)⟩) ∧
          (∀ p w, c5Tree.parent kh.2 = some (p, w) →
            c5Result.parent kh.2 = some (ins, w) ∧ c5Result.parentNode ins = some p))
    ∧ (∀ k h h', (k, h) ∈ c5Tree.terminals.enum → (k + 1, h') ∈ c5Tree.terminals.enum →
        origAccepted c5Tree (LabelSet.positive ["L"]) h = false →
        origAccepted c5Tree (LabelSet.positive ["L"]) h' = false →
        (c5Result.parentNode h = c5Result.parentNode h' ↔
          c5Tree.parentNode h = c5Tree.parentNode h'))) :=
  ⟨⟨by decide, by decide, by decide, by decide, by decide, by rfl⟩,
    c5_insert_intermediate c5Tree (LabelSet.positive ["L"]) "UNK" c5Result
      (by decide) (by decide) (by decide) (by decide) (by decide) (by rfl)⟩


/-! ## Claim C4 — `filter_nonterminals` -/

/-- The keep list of the partition, as a `filterMap` over the node store. -/
def keepOf (t : Tree) (tagSet : LabelSet) (l : List (Nat × Node)) : List Nat :=
  l.filterMap fun p =>
    if p.1 == t.root then none
    else
      match p.2 with
      | .nonTerminal nt => if tagSet.matches nt.label then some p.1 else none
      | .terminal _ => some p.1

/-- The delete list of the partition, as a `filterMap` over the node store. -/
def delOf (t : Tree) (tagSet : LabelSet) (l : List (Nat × Node)) : List Nat :=
  l.filterMap fun p =>
    if p.1 == t.root then none
    else
      match p.2 with
      | .nonTerminal nt => if tagSet.matches nt.label then none else some p.1
      | .terminal _ => none

theorem keepDelete_go (t : Tree) (tagSet : LabelSet) :
    ∀ (l : List (Nat × Node)) (acc : List Nat × List Nat),
    l.foldl
      (fun kd p =>
        if p.1 == t.root then kd
        else
          match p.2 with
          | .nonTerminal nt =>
            if tagSet.matches nt.label then (kd.1 ++ [p.1], kd.2)
            else (kd.1, kd.2 ++ [p.1])
          | .terminal _ => (kd.1 ++ [p.1], kd.2)) acc
      = (acc.1 ++ keepOf t tagSet l, acc.2 ++ delOf t tagSet l)
  | [], acc => by
    simp [keepOf, delOf]
  | p :: l, acc => by
    rw [List.foldl_cons, keepDelete_go t tagSet l _]
    unfold keepOf delOf
    rw [List.filterMap_cons, List.filterMap_cons]
    rcases p with ⟨i, nd⟩
    by_cases hr : (i == t.root) = true
    · simp only [hr, if_pos, if_true]
    · cases nd with
      | terminal tm =>
        simp only [hr, if_false, Bool.false_eq_true]
        rw [List.append_assoc]
        rfl
      | nonTerminal nt =>
        by_cases hm : tagSet.matches nt.label = true
        · simp only [hr, hm, if_false, if_true, Bool.false_eq_true]
          rw [List.append_assoc]
          rfl
        · simp only [hr, hm, if_false, Bool.false_eq_true]
          rw [List.append_assoc]
          rfl

theorem keepDelete_eq (t : Tree) (tagSet : LabelSet) :
    keepDelete t tagSet = (keepOf t tagSet t.nodes, delOf t tagSet t.nodes) := by
  unfold keepDelete
  rw [keepDelete_go t tagSet t.nodes ([], [])]
  rfl

theorem mem_delOf {t : Tree} {tagSet : LabelSet} {l : List (Nat × Node)} {x : Nat} :
    x ∈ delOf t tagSet l ↔
      ∃ nt, (x, Node.nonTerminal nt) ∈ l ∧ tagSet.matches nt.label = false ∧ x ≠ t.root := by
  unfold delOf
  rw [List.mem_filterMap]
  constructor
  · rintro ⟨p, hp, he⟩
    rcases p with ⟨i, nd⟩
    by_cases hr : (i == t.root) = true
    · rw [if_pos hr] at he
      cases he
    · rw [if_neg hr] at he
      cases nd with
      | terminal tm => exact Option.noConfusion he
      | nonTerminal nt =>
        simp only at he
        by_cases hm : tagSet.matches nt.label = true
        · rw [if_pos hm] at he
          cases he
        · rw [if_neg hm] at he
          injection he with he
          subst he
          exact ⟨nt, hp, Bool.eq_false_iff.mpr hm, by simpa using hr⟩
  · rintro ⟨nt, hp, hm, hr⟩
    refine ⟨(x, Node.nonTerminal nt), hp, ?_⟩
    show (if x == t.root then none
      else if tagSet.matches nt.label = true then none else some x) = some x
    rw [if_neg (by simpa using hr), if_neg (by rw [hm]; exact Bool.false_ne_true)]

theorem mem_keepOf {t : Tree} {tagSet : LabelSet} {l : List (Nat × Node)} {x : Nat} :
    x ∈ keepOf t tagSet l ↔
      ∃ nd, (x, nd) ∈ l ∧ x ≠ t.root ∧
        (∀ nt, nd = Node.nonTerminal nt → tagSet.matches nt.label = true) := by
  unfold keepOf
  rw [List.mem_filterMap]
  constructor
  · rintro ⟨p, hp, he⟩
    rcases p with ⟨i, nd⟩
    by_cases hr : (i == t.root) = true
    · rw [if_pos hr] at he
      cases he
    · rw [if_neg hr] at he
      cases nd with
      | terminal tm =>
        injection he with he
        subst he
        exact ⟨Node.terminal tm, hp, by simpa using hr, fun nt hcon => Node.noConfusion hcon⟩
      | nonTerminal nt =>
        simp only at he
        by_cases hm : tagSet.matches nt.label = true
        · rw [if_pos hm] at he
          injection he with he
          subst he
          refine ⟨Node.nonTerminal nt, hp, by simpa using hr, ?_⟩
          intro nt' hc
          injection hc with hc
          rw [← hc]
          exact hm
        · rw [if_neg hm] at he
          cases he
  · rintro ⟨nd, hp, hr, hcl⟩
    refine ⟨(x, nd), hp, ?_⟩
    cases nd with
    | terminal tm =>
      show (if x == t.root then none else some x) = some x
      rw [if_neg (by simpa using hr)]
    | nonTerminal nt =>
      show (if x == t.root then none
        else if tagSet.matches nt.label = true then some x else none) = some x
      rw [if_neg (by simpa using hr), if_pos (hcl nt rfl)]

theorem keepOf_sublist_keys (t : Tree) (tagSet : LabelSet) :
    ∀ l : List (Nat × Node), List.Sublist (keepOf t tagSet l) (l.map Prod.fst)
  | [] => List.Sublist.slnil
  | p :: l => by
    unfold keepOf
    rw [List.filterMap_cons, List.map_cons]
    cases hf : (if p.1 == t.root then none
      else
        match p.2 with
        | .nonTerminal nt => if tagSet.matches nt.label then some p.1 else none
        | .terminal _ => some p.1) with
    | none => exact (keepOf_sublist_keys t tagSet l).cons _
    | some y =>
      have hy : y = p.1 := by
        rcases p with ⟨i, nd⟩
        by_cases hr : (i == t.root) = true
        · rw [if_pos hr] at hf
          cases hf
        · rw [if_neg hr] at hf
          cases nd with
          | terminal tm =>
            injection hf with hf
            exact hf.symm
          | nonTerminal nt =>
            simp only at hf
            by_cases hm : tagSet.matches nt.label = true
            · rw [if_pos hm] at hf
              injection hf with hf
              exact hf.symm
            · rw [if_neg hm] at hf
              cases hf
      subst hy
      exact (keepOf_sublist_keys t tagSet l).cons₂ _

theorem mem_of_getNode {t : Tree} {i : Nat} {n : Node} (h : t.getNode i = some n) :
    (i, n) ∈ t.nodes := by
  unfold Tree.getNode at h
  cases hf : t.nodes.find? fun p => p.1 == i with
  | none =>
    rw [hf] at h
    cases h
  | some q =>
    rw [hf] at h
    injection h with h
    have hq := List.mem_of_find?_eq_some hf
    have hkey : q.1 = i := by simpa using List.find?_some hf
    rcases q with ⟨qi, qn⟩
    simp only at h hkey
    subst h
    subst hkey
    exact hq

theorem climbToMatch_frame (t T : Tree) (tagSet : LabelSet)
    (hget : ∀ j, T.getNode j = t.getNode j) (hroot : T.root = t.root)
    (hparD : ∀ x nt, t.getNode x = some (.nonTerminal nt) → tagSet.matches nt.label = false →
      x ≠ t.root → T.parent x = t.parent x) :
    ∀ fuel pos, T.parent pos = t.parent pos →
      climbToMatch T tagSet fuel pos = climbToMatch t tagSet fuel pos := by
  intro fuel
  induction fuel with
  | zero =>
    intro pos _
    rfl
  | succ f ih =>
    intro pos hpos
    unfold climbToMatch
    have hpn : T.parentNode pos = t.parentNode pos := by
      unfold Tree.parentNode
      rw [hpos]
    rw [hpn, hroot]
    cases hq : t.parentNode pos with
    | none => rfl
    | some pIdx =>
      dsimp only
      rw [hget pIdx]
      cases hg : t.getNode pIdx with
      | none => rfl
      | some nd =>
        cases nd with
        | terminal tm => rfl
        | nonTerminal nt =>
          dsimp only
          by_cases hc : (tagSet.matches nt.label || pIdx == t.root) = true
          · rw [if_pos hc, if_pos hc]
          · rw [if_neg hc, if_neg hc]
            have h1 : tagSet.matches nt.label = false := by
              cases hmm : tagSet.matches nt.label
              · rfl
              · exact absurd (by rw [hmm]; simp) hc
            have h2 : pIdx ≠ t.root := by
              intro he
              exact hc (by rw [he]; simp)
            exact ih pIdx (hparD pIdx nt hg h1 h2)

theorem climbToMatch_target (t : Tree) (tagSet : LabelSet) :
    ∀ fuel pos tgt, climbToMatch t tagSet fuel pos = .ok (some tgt) →
    ∃ nt, t.getNode tgt = some (.nonTerminal nt) ∧
      (tagSet.matches nt.label = true ∨ tgt = t.root) := by
  intro fuel
  induction fuel with
  | zero =>
    intro pos tgt h
    injection h with h
    exact Option.noConfusion h
  | succ f ih =>
    intro pos tgt h
    unfold climbToMatch at h
    cases hq : t.parentNode pos with
    | none =>
      rw [hq] at h
      injection h with h
      exact Option.noConfusion h
    | some pIdx =>
      rw [hq] at h
      dsimp only at h
      cases hg : t.getNode pIdx with
      | none =>
        rw [hg] at h
        exact Except.noConfusion h
      | some nd =>
        rw [hg] at h
        cases nd with
        | terminal tm => exact Except.noConfusion h
        | nonTerminal nt =>
          dsimp only at h
          by_cases hc : (tagSet.matches nt.label || pIdx == t.root) = true
          · rw [if_pos hc] at h
            injection h with h
            injection h with h
            subst h
            refine ⟨nt, hg, ?_⟩
            rcases Bool.or_eq_true _ _ |>.mp hc with h1 | h1
            · exact Or.inl h1
            · exact Or.inr (by simpa using h1)
          · rw [if_neg hc] at h
            exact ih pIdx tgt h


theorem find?_filter_eq (p q : α → Bool) (l : List α)
    (h : ∀ x, p x = true → q x = true) :
    (l.filter q).find? p = l.find? p := by
  induction l with
  | nil => rfl
  | cons x xs ih =>
    rw [List.filter_cons]
    by_cases hq : q x = true
    · rw [if_pos hq, List.find?_cons, List.find?_cons]
      cases hp : p x
      · exact ih
      · rfl
    · rw [if_neg hq, List.find?_cons]
      cases hp : p x
      · exact ih
      · exact absurd (h x hp) hq

theorem getNode_removeNode_self (t : Tree) (i : Nat) :
    (t.removeNode i).getNode i = none := by
  unfold Tree.getNode Tree.removeNode
  simp only
  rw [Option.map_eq_none', List.find?_eq_none]
  intro p hp
  have := List.of_mem_filter hp
  simp only [bne_iff_ne] at this
  simp [this]

theorem getNode_removeNode_ne (t : Tree) (i j : Nat) (hne : j ≠ i) :
    (t.removeNode i).getNode j = t.getNode j := by
  unfold Tree.getNode Tree.removeNode
  simp only
  rw [find?_filter_eq]
  intro p hp
  have hpj : p.1 = j := by simpa using hp
  simp [bne_iff_ne, hpj, hne]

theorem getNode_removeNode_none (t : Tree) (i j : Nat) (h : t.getNode j = none) :
    (t.removeNode i).getNode j = none := by
  unfold Tree.getNode Tree.removeNode at *
  simp only at *
  rw [Option.map_eq_none', List.find?_eq_none]
  rw [Option.map_eq_none', List.find?_eq_none] at h
  intro p hp
  exact h p (List.mem_of_mem_filter hp)

theorem root_removeNode (t : Tree) (i : Nat) : (t.removeNode i).root = t.root := rfl

theorem targetsNodup_removeNode (t : Tree) (i : Nat) (h : t.targetsNodup) :
    (t.removeNode i).targetsNodup := by
  unfold Tree.targetsNodup Tree.removeNode at *
  simp only
  exact h.sublist ((List.filter_sublist _).map _)

theorem parent_removeNode_other (t : Tree) (i x p : Nat) (w : Edge)
    (htnd : t.targetsNodup) (hp : t.parent x = some (p, w)) (hpi : p ≠ i) (hxi : x ≠ i) :
    (t.removeNode i).parent x = some (p, w) := by
  apply parent_eq_of_mem_edges (targetsNodup_removeNode t i htnd)
  show (p, x, w) ∈ (t.removeNode i).edges
  unfold Tree.removeNode
  simp only
  apply List.mem_filter.mpr
  refine ⟨parent_mem_edges hp, ?_⟩
  simp [bne_iff_ne, hpi, hxi]

theorem foldl_removeNode_root : ∀ (dels : List Nat) (T : Tree),
    (dels.foldl Tree.removeNode T).root = T.root
  | [], T => rfl
  | d :: dels, T => by
    rw [List.foldl_cons, foldl_removeNode_root dels _, root_removeNode]

theorem foldl_removeNode_getNode_ne : ∀ (dels : List Nat) (T : Tree) (j : Nat),
    j ∉ dels → (dels.foldl Tree.removeNode T).getNode j = T.getNode j
  | [], T, j, _ => rfl
  | d :: dels, T, j, hj => by
    rw [List.foldl_cons, foldl_removeNode_getNode_ne dels _ j
      (fun hc => hj (List.mem_cons_of_mem _ hc)),
      getNode_removeNode_ne T d j (fun hc => hj (hc ▸ List.mem_cons_self _ _))]

theorem foldl_removeNode_none : ∀ (dels : List Nat) (T : Tree) (j : Nat),
    T.getNode j = none → (dels.foldl Tree.removeNode T).getNode j = none
  | [], T, j, h => h
  | d :: dels, T, j, h => by
    rw [List.foldl_cons]
    exact foldl_removeNode_none dels _ j (getNode_removeNode_none T d j h)

theorem foldl_removeNode_getNode_mem : ∀ (dels : List Nat) (T : Tree) (j : Nat),
    j ∈ dels → (dels.foldl Tree.removeNode T).getNode j = none
  | [], _, j, hj => absurd hj (List.not_mem_nil j)
  | d :: dels, T, j, hj => by
    rw [List.foldl_cons]
    by_cases hjd : j = d
    · subst hjd
      exact foldl_removeNode_none dels _ j (getNode_removeNode_self T j)
    · rcases List.mem_cons.mp hj with he | hm
      · exact absurd he hjd
      · exact foldl_removeNode_getNode_mem dels _ j hm

theorem foldl_removeNode_parent : ∀ (dels : List Nat) (T : Tree) (x p : Nat) (w : Edge),
    T.targetsNodup → T.parent x = some (p, w) → p ∉ dels → x ∉ dels →
    (dels.foldl Tree.removeNode T).parent x = some (p, w)
  | [], T, x, p, w, _, hp, _, _ => hp
  | d :: dels, T, x, p, w, htnd, hp, hpd, hxd => by
    rw [List.foldl_cons]
    exact foldl_removeNode_parent dels _ x p w
      (targetsNodup_removeNode T d htnd)
      (parent_removeNode_other T d x p w htnd hp
        (fun hc => hpd (hc ▸ List.mem_cons_self _ _))
        (fun hc => hxd (hc ▸ List.mem_cons_self _ _)))
      (fun hc => hpd (List.mem_cons_of_mem _ hc))
      (fun hc => hxd (List.mem_cons_of_mem _ hc))

theorem edges_removeNode_endpoints {t : Tree} {i : Nat} {e : Nat × Nat × Edge}
    (he : e ∈ (t.removeNode i).edges) : e ∈ t.edges ∧ e.1 ≠ i ∧ e.2.1 ≠ i := by
  unfold Tree.removeNode at he
  simp only at he
  rcases List.mem_filter.mp he with ⟨hmem, hcond⟩
  rw [Bool.and_eq_true, bne_iff_ne, bne_iff_ne] at hcond
  exact ⟨hmem, hcond.1, hcond.2⟩

theorem foldl_removeNode_edges : ∀ (dels : List Nat) (T : Tree) (e : Nat × Nat × Edge),
    e ∈ (dels.foldl Tree.removeNode T).edges →
    e ∈ T.edges ∧ e.1 ∉ dels ∧ e.2.1 ∉ dels
  | [], T, e, he => ⟨he, List.not_mem_nil _, List.not_mem_nil _⟩
  | d :: dels, T, e, he => by
    rw [List.foldl_cons] at he
    obtain ⟨he1, hu, hv⟩ := foldl_removeNode_edges dels _ e he
    obtain ⟨he2, hu2, hv2⟩ := edges_removeNode_endpoints he1
    refine ⟨he2, ?_, ?_⟩
    · intro hc
      rcases List.mem_cons.mp hc with hee | hm
      · exact hu2 hee
      · exact hu hm
    · intro hc
      rcases List.mem_cons.mp hc with hee | hm
      · exact hv2 hee
      · exact hv hm


theorem filterLoop_spec (t : Tree) (tagSet : LabelSet) :
    ∀ (ks : List Nat) (T R : Tree),
    filterLoop tagSet T ks = .ok R →
    T.nodes = t.nodes → T.root = t.root → T.targetsNodup →
    (∀ x nt, t.getNode x = some (.nonTerminal nt) → tagSet.matches nt.label = false →
      x ≠ t.root → T.parent x = t.parent x) →
    (∀ n ∈ ks, T.parent n = t.parent n) →
    ks.Nodup →
    (∀ n ∈ ks, ∀ nt, t.getNode n = some (.nonTerminal nt) → tagSet.matches nt.label = true) →
    (R.nodes = T.nodes ∧ R.root = T.root ∧ R.targetsNodup ∧
      (∀ x, x ∉ ks → R.parent x = T.parent x) ∧
      (∀ n ∈ ks, ∃ p0 w, t.parent n = some (p0, w) ∧
        (∀ tgt, climbToMatch t tagSet (t.nodes.length + 1) n = .ok (some tgt) →
          R.parent n = some (tgt, w)) ∧
        (climbToMatch t tagSet (t.nodes.length + 1) n = .ok none →
          R.parent n = some (p0, w)))) := by
  intro ks
  induction ks with
  | nil =>
    intro T R hok hnodes hroot htnd hparD hparKs hnd hksCl
    simp only [filterLoop] at hok
    injection hok with hok
    subst hok
    exact ⟨rfl, rfl, htnd, fun x _ => rfl, fun n hn => absurd hn (List.not_mem_nil n)⟩
  | cons n ks ih =>
    intro T R hok hnodes hroot htnd hparD hparKs hnd hksCl
    rcases List.nodup_cons.mp hnd with ⟨hn_notin, hnd'⟩
    have hparn : T.parent n = t.parent n := hparKs n (List.mem_cons_self _ _)
    have hget : ∀ j, T.getNode j = t.getNode j := by
      intro j
      unfold Tree.getNode
      rw [hnodes]
    simp only [filterLoop] at hok
    cases hpt : t.parent n with
    | none =>
      rw [hparn, hpt] at hok
      exact Except.noConfusion hok
    | some pw =>
      rcases pw with ⟨p0, w⟩
      rw [hparn, hpt] at hok
      dsimp only at hok
      have hclimb : climbToMatch T tagSet (T.nodes.length + 1) n
          = climbToMatch t tagSet (t.nodes.length + 1) n := by
        rw [hnodes]
        exact climbToMatch_frame t T tagSet hget hroot hparD _ n hparn
      rw [hclimb] at hok
      cases hcl : climbToMatch t tagSet (t.nodes.length + 1) n with
      | error e =>
        rw [hcl] at hok
        exact Except.noConfusion hok
      | ok tgtOpt =>
        rw [hcl] at hok
        cases tgtOpt with
        | none =>
          dsimp only at hok
          obtain ⟨hRn, hRroot, hRtnd, hRframe, hRks⟩ := ih T R hok hnodes hroot htnd hparD
            (fun m hm => hparKs m (List.mem_cons_of_mem _ hm)) hnd'
            (fun m hm => hksCl m (List.mem_cons_of_mem _ hm))
          refine ⟨hRn, hRroot, hRtnd, ?_, ?_⟩
          · intro x hx
            exact hRframe x fun hc => hx (List.mem_cons_of_mem _ hc)
          · intro m hm
            rcases List.mem_cons.mp hm with he | hmm
            · rw [he]
              refine ⟨p0, w, hpt, ?_, ?_⟩
              · intro tgt hc
                rw [hcl] at hc
                injection hc with hc
                exact Option.noConfusion hc
              · intro _
                rw [hRframe n hn_notin, hparn, hpt]
            · exact hRks m hmm
        | some tgt =>
          dsimp only at hok
          have hpT : T.parent n = some (p0, w) := by
            rw [hparn, hpt]
          have hre : T.removeParentEdge n
              = (w, { T with edges := T.edges.eraseP fun e => e.2.1 == n }) :=
            removeParentEdge_eq T n p0 w hpT
          rw [hre] at hok
          set T1 : Tree := { T with edges := T.edges.eraseP fun e => e.2.1 == n } with hT1d
          have hT1eq : T1 = (T.removeParentEdge n).2 := by
            rw [hre]
          have hT1parn : T1.parent n = none := by
            rw [hT1eq]
            exact parent_removeParentEdge_self T n htnd
          have hok2 : filterLoop tagSet (T1.updateEdge tgt n w) ks = .ok R := hok
          rw [updateEdge_eq_addEdge T1 tgt n w hT1parn] at hok2
          set T2 : Tree := T1.addEdge tgt n w with hT2d
          have hT2nodes : T2.nodes = t.nodes := hnodes
          have hT2root : T2.root = t.root := hroot
          have hT1tnd : T1.targetsNodup := by
            rw [hT1eq]
            exact targetsNodup_removeParentEdge T n htnd
          have hT2tnd : T2.targetsNodup := targetsNodup_addEdge T1 tgt n w hT1tnd hT1parn
          have hT2parn : T2.parent n = some (tgt, w) :=
            parent_addEdge_self T1 tgt n w hT1parn
          have hT2par_ne : ∀ j, j ≠ n → T2.parent j = T.parent j := by
            intro j hj
            rw [hT2d, parent_addEdge_ne T1 tgt n w j hj, hT1eq]
            exact parent_removeParentEdge_ne T n j hj
          have hparD2 : ∀ x nt, t.getNode x = some (.nonTerminal nt) →
              tagSet.matches nt.label = false → x ≠ t.root → T2.parent x = t.parent x := by
            intro x nt hgx hmx hrx
            have hxn : x ≠ n := by
              intro he
              subst he
              have := hksCl x (List.mem_cons_self _ _) nt hgx
              rw [this] at hmx
              exact Bool.noConfusion hmx
            rw [hT2par_ne x hxn]
            exact hparD x nt hgx hmx hrx
          have hparKs2 : ∀ m ∈ ks, T2.parent m = t.parent m := by
            intro m hm
            rw [hT2par_ne m (fun he => hn_notin (he ▸ hm))]
            exact hparKs m (List.mem_cons_of_mem _ hm)
          obtain ⟨hRn, hRroot, hRtnd, hRframe, hRks⟩ := ih T2 R hok2 hT2nodes hT2root
            hT2tnd hparD2 hparKs2 hnd'
            (fun m hm => hksCl m (List.mem_cons_of_mem _ hm))
          refine ⟨hRn, hRroot, hRtnd, ?_, ?_⟩
          · intro x hx
            rw [hRframe x (fun hc => hx (List.mem_cons_of_mem _ hc)),
              hT2par_ne x (fun he => hx (he ▸ List.mem_cons_self _ _))]
          · intro m hm
            rcases List.mem_cons.mp hm with he | hmm
            · rw [he]
              refine ⟨p0, w, hpt, ?_, ?_⟩
              · intro tgt' hc
                rw [hcl] at hc
                injection hc with hc
                injection hc with hc
                subst hc
                rw [hRframe n hn_notin]
                exact hT2parn
              · intro hc
                rw [hcl] at hc
                injection hc with hc
                exact Option.noConfusion hc
            · exact hRks m hmm


/-- C4: after `filter_nonterminals` returns `Ok`, the root node is
unchanged; every non-root non-terminal whose label is not accepted is
deleted; every surviving non-root node is re-attached to the node found by
climbing the original tree to the nearest strict ancestor whose label is
accepted or to the root (whichever comes first); and no node that was
filtered out appears as a parent in the result. -/
theorem c4_filter_nonterminals (t : Tree) (tagSet : LabelSet) (R : Tree)
    (hw : t.wellKeyed) (htnd : t.targetsNodup)
    (hok : t.filter_nonterminals tagSet = .ok R) :
    (R.root = t.root ∧ R.getNode t.root = t.getNode t.root)
    ∧ (∀ i nt, t.getNode i = some (.nonTerminal nt) → i ≠ t.root →
        tagSet.matches nt.label = false → R.getNode i = none)
    ∧ (∀ i nd, t.getNode i = some nd → i ≠ t.root →
        (∀ nt, nd = Node.nonTerminal nt → tagSet.matches nt.label = true) →
        ∀ tgt, climbToMatch t tagSet (t.nodes.length + 1) i = .ok (some tgt) →
          R.parentNode i = some tgt)
    ∧ (∀ x p w nt, (p, x, w) ∈ R.edges → t.getNode p = some (.nonTerminal nt) →
        p ≠ t.root → tagSet.matches nt.label = true) := by
  simp only [Tree.filter_nonterminals] at hok
  rw [keepDelete_eq] at hok
  dsimp only at hok
  cases hfl : filterLoop tagSet t (keepOf t tagSet t.nodes) with
  | error e =>
    rw [hfl] at hok
    exact Except.noConfusion hok
  | ok T1 =>
    rw [hfl] at hok
    injection hok with hok
    subst hok
    have hksnd : (keepOf t tagSet t.nodes).Nodup :=
      (keepOf_sublist_keys t tagSet t.nodes).nodup hw
    have hksCl : ∀ n ∈ keepOf t tagSet t.nodes, ∀ nt,
        t.getNode n = some (.nonTerminal nt) → tagSet.matches nt.label = true := by
      intro n hn nt hg
      rcases mem_keepOf.mp hn with ⟨nd, hmem, hnr, hcl⟩
      have hge := getNode_eq_of_mem hw hmem
      rw [hg] at hge
      injection hge with hge
      exact hcl nt hge.symm
    obtain ⟨hRn, hRroot, hRtnd, hRframe, hRks⟩ := filterLoop_spec t tagSet
      (keepOf t tagSet t.nodes) t T1 hfl rfl rfl htnd
      (fun x nt _ _ _ => rfl) (fun n _ => rfl) hksnd hksCl
    have hdel_not_root : t.root ∉ delOf t tagSet t.nodes := by
      intro hc
      rcases mem_delOf.mp hc with ⟨nt, _, _, hne⟩
      exact hne rfl
    refine ⟨⟨?_, ?_⟩, ?_, ?_, ?_⟩
    · rw [foldl_removeNode_root, hRroot]
    · rw [foldl_removeNode_getNode_ne _ _ _ hdel_not_root]
      unfold Tree.getNode
      rw [hRn]
    · intro i nt hg hir hm
      apply foldl_removeNode_getNode_mem
      exact mem_delOf.mpr ⟨nt, mem_of_getNode hg, hm, hir⟩
    · intro i nd hg hir hcl tgt hclimb
      have hkeep : i ∈ keepOf t tagSet t.nodes :=
        mem_keepOf.mpr ⟨nd, mem_of_getNode hg, hir, hcl⟩
      obtain ⟨p0, w, hp0, hsome, _⟩ := hRks i hkeep
      have hT1par : T1.parent i = some (tgt, w) := hsome tgt hclimb
      have hidel : i ∉ delOf t tagSet t.nodes := by
        intro hc
        rcases mem_delOf.mp hc with ⟨nt', hmem', hm', _⟩
        have hge := getNode_eq_of_mem hw hmem'
        rw [hg] at hge
        injection hge with hge
        rw [hcl nt' hge] at hm'
        exact Bool.noConfusion hm'
      have htgtdel : tgt ∉ delOf t tagSet t.nodes := by
        intro hc
        rcases mem_delOf.mp hc with ⟨nt', hmem', hm', hner⟩
        rcases climbToMatch_target t tagSet _ i tgt hclimb with ⟨nt2, hg2, hor⟩
        have hge := getNode_eq_of_mem hw hmem'
        rw [hg2] at hge
        injection hge with hge
        injection hge with hge
        rcases hor with hacc | hroot
        · rw [← hge] at hm'
          rw [hacc] at hm'
          exact Bool.noConfusion hm'
        · exact hner hroot
      unfold Tree.parentNode
      rw [foldl_removeNode_parent _ _ _ _ _ hRtnd hT1par htgtdel hidel]
      rfl
    · intro x p w nt hmem hg hpr
      by_contra hm
      have hpd : p ∈ delOf t tagSet t.nodes :=
        mem_delOf.mpr ⟨nt, mem_of_getNode hg, Bool.eq_false_iff.mpr hm, hpr⟩
      obtain ⟨_, hpnot, _⟩ := foldl_removeNode_edges _ _ _ hmem
      exact hpnot hpd


def c4Tree : Tree :=
  { nodes := [(0, .nonTerminal ( NonTerminal.mk' "ROOT" (.continuous 0 1))),
              (1, .nonTerminal ( NonTerminal.mk' "BAD" (.continuous 0 1))),
              (2, .nonTerminal ( NonTerminal.mk' "KEEP" (.continuous 0 1))),
              (3, .terminal ( Terminal.mk' "a" "TA" 0))],
    edges := [(0, 1, Edge.default), (1, 2, Edge.default), (2, 3, Edge.default)],
    nextId := 4, root := 0, nTerminals := 1, projectivity := true }

/-- Result of `filter_nonterminals (positive ["KEEP"])` on `c4Tree`: the
`BAD` node is deleted, `KEEP` is re-attached to the root. -/
def c4Result : Tree :=
  { nodes := [(0, .nonTerminal ⟨"ROOT", none, .continuous 0 1⟩),
              (2, .nonTerminal ⟨"KEEP", none, .continuous 0 1⟩),
              (3, .terminal ⟨"a", "TA", none, none, 0⟩)],
    edges := [(0, 2, ⟨none⟩), (2, 3, ⟨none⟩)],
    nextId := 4, root := 0, nTerminals := 1, projectivity := true }

/-- C4 witness: the theorem applied to a concrete tree. -/
theorem c4_filter_nonterminals_witness :
    (c4Tree.wellKeyed ∧ c4Tree.targetsNodup ∧
      c4Tree.filter_nonterminals (LabelSet.positive ["KEEP"]) = .ok c4Result) ∧
    ((c4Result.root = c4Tree.root ∧
        c4Result.getNode c4Tree.root = c4Tree.getNode c4Tree.root)
    ∧ (∀ i nt, c4Tree.getNode i = some (.nonTerminal nt) → i ≠ c4Tree.root →
        (LabelSet.positive ["KEEP"]).matches nt.label = false → c4Result.getNode i = none)
    ∧ (∀ i nd, c4Tree.getNode i = some nd → i ≠ c4Tree.root →
        (∀ nt, nd = Node.nonTerminal nt → (LabelSet.positive ["KEEP"]).matches nt.label = true) →
        ∀ tgt, climbToMatch c4Tree (LabelSet.positive ["KEEP"])
            (c4Tree.nodes.length + 1) i = .ok (some tgt) →
          c4Result.parentNode i = some tgt)
    ∧ (∀ x p w nt, (p, x, w) ∈ c4Result.edges →
        c4Tree.getNode p = some (.nonTerminal nt) → p ≠ c4Tree.root →
        (LabelSet.positive ["KEEP"]).matches nt.label = true)) :=
  ⟨⟨by decide, by decide, by rfl⟩,
    c4_filter_nonterminals c4Tree (LabelSet.positive ["KEEP"]) c4Result
      (by decide) (by decide) (by rfl)⟩


def c1TreeGood : Tree :=
  { nodes := [(0, .nonTerminal ( NonTerminal.mk' "ROOT" (.continuous 0 1))),
              (1, .nonTerminal ( NonTerminal.mk' "UNARY" (.continuous 0 1))),
              (2, .terminal ( Terminal.mk' "t" "T" 0))],
    edges := [(0, 1, Edge.default), (1, 2, Edge.default)],
    nextId := 3, root := 0, nTerminals := 1, projectivity := true }

def c1TreeBad : Tree :=
  { nodes := [(0, .nonTerminal ( NonTerminal.mk' "ROOT" (.continuous 0 1))),
              (1, .nonTerminal ( NonTerminal.mk' "A_B" (.continuous 0 1))),
              (2, .terminal ( Terminal.mk' "t" "T" 0))],
    edges := [(0, 1, Edge.default), (1, 2, Edge.default)],
    nextId := 3, root := 0, nTerminals := 1, projectivity := true }

/-- `c1TreeGood` after collapsing with `"_"`: the spec's scenario-1 result. -/
def c1Collapsed : Tree :=
  { nodes := [(2, .terminal ⟨"t", "T", none, some ⟨[("unary_chain", some "UNARY_ROOT")]⟩, 0⟩)],
    edges := [],
    nextId := 3, root := 2, nTerminals := 1, projectivity := true }

/-- `c1Collapsed` after restoring with `"_"`: the original shape on fresh
indices, with a materialized empty feature bag on the terminal. -/
def c1GoodResult : Tree :=
  { nodes := [(2, .terminal ⟨"t", "T", none, some ⟨[]⟩, 0⟩),
              (3, .nonTerminal ⟨"UNARY", none, .continuous 0 1⟩),
              (4, .nonTerminal ⟨"ROOT", none, .continuous 0 1⟩)],
    edges := [(3, 2, ⟨none⟩), (4, 3, ⟨none⟩)],
    nextId := 5, root := 4, nTerminals := 1, projectivity := true }

/-- `c1TreeBad` (label `A_B` contains the delimiter) after the round trip:
the collapsed chain label `A_B_ROOT` splits into three labels. -/
def c1BadResult : Tree :=
  { nodes := [(2, .terminal ⟨"t", "T", none, some ⟨[]⟩, 0⟩),
              (3, .nonTerminal ⟨"A", none, .continuous 0 1⟩),
              (4, .nonTerminal ⟨"B", none, .continuous 0 1⟩),
              (5, .nonTerminal ⟨"ROOT", none, .continuous 0 1⟩)],
    edges := [(3, 2, ⟨none⟩), (4, 3, ⟨none⟩), (5, 4, ⟨none⟩)],
    nextId := 6, root := 5, nTerminals := 1, projectivity := true }

/-- C1 counterexample: on the PTB-parseable tree `(ROOT (A_B (T t)))`,
whose non-terminal label `A_B` contains the delimiter `"_"`, collapsing
and restoring with `"_"` does not return the original tree: the collapsed
chain value `A_B_ROOT` is split at every delimiter occurrence, so the
restored tree has four nodes instead of three, among them a non-terminal
labelled `B` that the original never contained. -/
theorem c1_roundtrip_fails_with_delimiter_label :
    c1TreeBad.collapse_unary_chains "_"
      = .ok (c1Collapsed.setNode 2
          (.terminal ⟨"t", "T", none, some ⟨[("unary_chain", some "A_B_ROOT")]⟩, 0⟩)) ∧
    (c1TreeBad.collapse_unary_chains "_").map (fun t => t.restore_unary_chains "_")
      = .ok c1BadResult ∧
    c1BadResult.nodes.length = 4 ∧ c1TreeBad.nodes.length = 3 ∧
    c1BadResult.getNode 4 = some (.nonTerminal ⟨"B", none, .continuous 0 1⟩) ∧
    (∀ p ∈ c1TreeBad.nodes, p.2 ≠ Node.nonTerminal ⟨"B", none, .continuous 0 1⟩) ∧
    c1BadResult ≠ c1TreeBad := by
  refine ⟨by rfl, by rfl, by rfl, by rfl, by rfl, by decide, by decide⟩

/-- C1 amended: on the spec scenario tree `(ROOT (UNARY (T t)))` with
delimiter `"_"` (no label contains the delimiter), collapsing yields the
single-terminal tree whose root carries the feature
`unary_chain = UNARY_ROOT`, and restoring rebuilds the original
constituency shape - a new `ROOT` over a new `UNARY` over the terminal -
but on fresh node indices and with a materialized empty feature bag on
the terminal, so even here the round trip is the identity only up to node
re-indexing and feature materialization, not as tree values. -/
theorem c1_roundtrip_scenario :
    c1TreeGood.collapse_unary_chains "_" = .ok c1Collapsed ∧
    c1Collapsed.root = 2 ∧
    c1Collapsed.getNode 2
      = some (.terminal ⟨"t", "T", none, some ⟨[("unary_chain", some "UNARY_ROOT")]⟩, 0⟩) ∧
    c1Collapsed.restore_unary_chains "_" = c1GoodResult ∧
    c1GoodResult.labelAt c1GoodResult.root = "ROOT" ∧
    c1GoodResult.children c1GoodResult.root = [(3, ⟨none⟩)] ∧
    c1GoodResult.labelAt 3 = "UNARY" ∧
    c1GoodResult.children 3 = [(2, ⟨none⟩)] ∧
    c1GoodResult.getNode 2 = some (.terminal ⟨"t", "T", none, some ⟨[]⟩, 0⟩) ∧
    c1GoodResult.terminals = c1TreeGood.terminals ∧
    c1GoodResult ≠ c1TreeGood := by
  refine ⟨by rfl, by rfl, by rfl, by rfl, by rfl, by rfl, by rfl, by rfl, by rfl, by rfl,
    by decide⟩

end Lumberjack
